import Mathlib

/-!
# Verification of the `letterboxed_solver` repository

Shallow embedding of the Letter Boxed puzzle solver (Rust) into Lean 4:
the puzzle model (`src/lib.rs`), the per-puzzle filtered dictionary
(`src/dictionary.rs`), and the three solver strategies
(`src/solvers/{a_star,pre_dict,brute_force}.rs`), together with proofs
about them.

Conventions of the embedding:
* Rust `String` words are modelled as `List Char` (`Word`); the source's
  byte-length `len()` coincides with the character count for the ASCII
  word lists the program consumes.
* Fallible Rust code returns `Except`/`Option`; a Rust `panic!`/`unwrap`
  failure is modelled as the `none` of an outer `Option` layer.
* Rust `HashSet<char>` values are modelled as `List Char`; only
  membership in these sets is ever observed by the program.
* The raw dictionary file is external input, modelled as a `List Word`
  parameter (the source streams trimmed lines out of a `BufReader`).
-/

deriving instance DecidableEq for Except

namespace LB

/-- A dictionary word, the char sequence of a Rust `String`. -/
abbrev Word := List Char

/-- `LBPuzzle<NSIDES, NLETTERS>` from `src/lib.rs`.  The const generics
`S` (number of sides) and `L` (letters per side) are carried as fields;
`Wf` below states the shape invariant that Rust's `[[char; L]; S]`
arrays give for free. -/
structure LBPuzzle where
  S : Nat
  L : Nat
  max_words : Nat
  sides : List (List Char)
deriving DecidableEq

/-- Shape invariant enforced by the Rust array types `[[char; L]; S]`. -/
def LBPuzzle.Wf (p : LBPuzzle) : Prop :=
  p.sides.length = p.S ∧ ∀ side ∈ p.sides, side.length = p.L

instance (p : LBPuzzle) : Decidable p.Wf := by
  unfold LBPuzzle.Wf; infer_instance

/-- Accumulator pass behind `splitWs`: `acc` holds the current token's
characters in reverse. -/
def splitWsAux : List Char → List Char → List (List Char)
  | [], acc => if acc.isEmpty then [] else [acc.reverse]
  | c :: rest, acc =>
    if c.isWhitespace then
      if acc.isEmpty then splitWsAux rest [] else acc.reverse :: splitWsAux rest []
    else splitWsAux rest (c :: acc)

/-- Whitespace split as performed by Rust's `str::split_whitespace`:
tokens are the maximal runs of non-whitespace characters. -/
def splitWs (cs : List Char) : List (List Char) := splitWsAux cs []

/-- `LBPuzzle::from_str` (src/lib.rs:41-59): requires exactly `S`
whitespace-separated tokens, each of exactly `L` characters (the
`try_into` into `[char; L]` fails otherwise); the `S` loop iterations
overwrite every row of the initial `[[' '; L]; S]` array. -/
def from_str (S L max_words : Nat) (sides_str : List Char) : Except String LBPuzzle :=
  if (splitWs sides_str).length ≠ S then .error "Wrong number of sides."
  else if (splitWs sides_str).any (fun t => t.length ≠ L) then .error "wrong letters"
  else .ok ⟨S, L, max_words, splitWs sides_str⟩

/-- `LBPuzzle::all_letters` (src/lib.rs:72-78): all letters, side-major. -/
def all_letters (p : LBPuzzle) : List Char :=
  p.sides.flatten

/-- `LBPuzzle::n_letters` (src/lib.rs:82-84). -/
def n_letters (p : LBPuzzle) : Nat := p.S * p.L

/-- `LBPuzzle::idx_to_side` (src/lib.rs:87-92). -/
def idx_to_side (p : LBPuzzle) (idx : Int) : Option Int :=
  if 0 ≤ idx ∧ idx < (n_letters p : Int) then some (idx / (p.L : Int)) else none

/-- `LBPuzzle::is_idx_on_side` (src/lib.rs:95-97). -/
def is_idx_on_side (p : LBPuzzle) (idx side : Int) : Bool :=
  ((idx_to_side p idx).getD (-1)) == side

/-- `LBPuzzle::valid_letters` (src/lib.rs:100-110): letters of every side
other than the side holding `prev_idx`.  The Rust `HashSet<char>` is
modelled as a list; the program only observes membership. -/
def valid_letters (p : LBPuzzle) (prev_idx : Int) : List Char :=
  (p.sides.enum.filter (fun sz => ¬ is_idx_on_side p prev_idx (sz.1 : Int))).flatMap
    (fun sz => sz.2)

/-- Step 2 of `validate_solution`: merge the words into one letter
sequence, checking that each word starts with the previous word's last
letter; on success the accumulated sequence is returned. -/
def chainWords (first : Word) (rest : List Word) : Except String Word :=
  match rest with
  | [] => .ok first
  | w :: ws =>
    if w.head? ≠ first.getLast? then .error "Start & end letters don't match"
    else chainWords (first ++ w.drop 1) ws

/-- The inner side scan of `validate_solution`'s walk: the first side
`i ≠ prev_side` containing `letter`, together with the first position of
`letter` on that side. -/
def findLetter (prev_side : Int) (letter : Char) : List (Nat × List Char) → Option (Nat × Nat)
  | [] => none
  | (i, side) :: rest =>
    if (i : Int) = prev_side then findLetter prev_side letter rest
    else
      match side.findIdx? (fun l => letter == l) with
      | some idx => some (i, idx)
      | none => findLetter prev_side letter rest

/-- Mark position `(i, j)` of the `visited_letters` grid. -/
def setVisited (v : List (List Bool)) (i j : Nat) : List (List Bool) :=
  v.set i (((v.get? i).getD []).set j true)

/-- Read position `(i, j)` of the `visited_letters` grid. -/
def vget (v : List (List Bool)) (i j : Nat) : Bool :=
  (((v.get? i).getD []).get? j).getD false

/-- Steps 3 of `validate_solution`: walk the merged sequence around the
board, at each letter choosing the first side other than the previous
one that contains it, and marking the chosen position as visited. -/
def walkGo (p : LBPuzzle) : Word → Int → List (List Bool) → Except String (List (List Bool))
  | [], _, visited => .ok visited
  | c :: cs, prev, visited =>
    match findLetter prev c p.sides.enum with
    | some (i, idx) => walkGo p cs (i : Int) (setVisited visited i idx)
    | none => .error ("Failed to find letter " ++ String.mk [c])

/-- The walk of `validate_solution` starting from `prev_side = -1` with
an all-false `visited_letters` grid of the board's shape. -/
def walkSeq (p : LBPuzzle) (seq : Word) : Except String (List (List Bool)) :=
  walkGo p seq (-1) (p.sides.map (fun side => side.map (fun _ => false)))

/-- `LBPuzzle::validate_solution` (src/lib.rs:113-160).  The outer
`Option` layer models panics: `solution.get(0).unwrap()` panics on an
empty solution, hence `none` there. -/
def validate_solution (p : LBPuzzle) (solution : List Word) : Option (Except String Unit) :=
  match solution.find? (fun w => w.length < 3) with
  | some w => some (.error (String.mk w ++ " is <3 letters long"))
  | none =>
    match solution with
    | [] => none
    | first :: rest =>
      match chainWords first rest with
      | .error e => some (.error e)
      | .ok seq =>
        match walkSeq p seq with
        | .error e => some (.error e)
        | .ok visited =>
          if visited.all (fun side => side.all id) then some (.ok ())
          else some (.error "Not all letters were used.")

/-! ## The per-puzzle dictionary (`src/dictionary.rs`, module `smart_dict`) -/

/-- Rust `str::trim` on a line of the word file. -/
def trimWs (w : Word) : Word :=
  ((w.dropWhile Char.isWhitespace).reverse.dropWhile Char.isWhitespace).reverse

/-- The `idx_to_valids` closure of `_Builder::new`
(src/dictionary.rs:120-121): `side_to_valids.get(idx as usize / L)`
falling back to `all_valids = valid_letters(-1)`.  A negative `idx`
wraps to a huge `usize`, so `get` yields `None` and the fallback is
used; `side_to_valids[s] = valid_letters(s * L)`. -/
def idx_to_valids (p : LBPuzzle) (idx : Int) : List Char :=
  if idx < 0 then valid_letters p (-1)
  else if idx.toNat / p.L < p.S then valid_letters p ((idx.toNat / p.L * p.L : Nat) : Int)
  else valid_letters p (-1)

/-- The per-word filter loop of `_Builder::new` (src/dictionary.rs:144-156):
walk the word's letters, each one must be in the valid-successor set of
the previous letter's index; the next index is the first position of the
current letter in `all_letters`.  (The source `.expect`s that position;
it cannot fail because membership in any valid set implies membership in
`all_letters`, so the impossible branch is modelled as rejection.) -/
def checkWordFrom (p : LBPuzzle) : Int → Word → Bool
  | _, [] => true
  | prev, c :: rest =>
    if (idx_to_valids p prev).contains c then
      match (all_letters p).findIdx? (fun x => x == c) with
      | some i => checkWordFrom p (i : Int) rest
      | none => false
    else false

/-- A trimmed word survives `_Builder::new`'s filter: length at least 3
and the letter walk succeeds from `prev_letter_idx = -1`. -/
def wordAccepted (p : LBPuzzle) (w : Word) : Bool :=
  3 ≤ w.length && checkWordFrom p (-1) w

/-- `_Builder::_add_word` (src/dictionary.rs:78-87) on an association
list standing for the `HashMap<char, Vec<Rc<String>>>`: append the word
to its first letter's group, creating the group if absent.  (The source
`expect`s a nonempty word; only words of length ≥ 3 reach this point,
so the empty case is modelled as a no-op.) -/
def addWord (groups : List (Char × List Word)) (w : Word) : List (Char × List Word) :=
  match w.head? with
  | none => groups
  | some c =>
    if groups.any (fun g => g.1 == c) then
      groups.map (fun g => if g.1 == c then (g.1, g.2 ++ [w]) else g)
    else groups ++ [(c, [w])]

/-- Insertion step for the by-descending-length sort of `_Builder::_sort`
(src/dictionary.rs:72-76).  The source's `sort_unstable_by` leaves the
relative order of equal-length words unspecified but deterministic;
any fixed descending-by-length order is a faithful model. -/
def insertDesc (w : Word) : List Word → List Word
  | [] => [w]
  | x :: xs => if x.length ≤ w.length then w :: x :: xs else x :: insertDesc w xs

/-- `_Builder::_sort` applied to one group. -/
def sortDesc (ws : List Word) : List Word := ws.foldr insertDesc []

/-- The grouping built by `_Builder::new` from the trimmed raw word
list: filter, group by first letter (insertion order), then sort each
group by descending length. -/
def buildGroups (p : LBPuzzle) (raw : List Word) : List (Char × List Word) :=
  (((raw.map trimWs).filter (wordAccepted p)).foldl addWord []).map
    (fun g => (g.1, sortDesc g.2))

/-- Iteration order of the Rust `HashMap` is unspecified: `σ` lists the
keys in the order the map presents its entries when
`_Builder::get_flat_indexed` flattens them. -/
def reorder (σ : List Char) (groups : List (Char × List Word)) : List (Char × List Word) :=
  σ.filterMap (fun c => groups.find? (fun g => g.1 == c))

/-- `SmartDictionary` (src/dictionary.rs:177-180): the by-first-letter
map and the flattened indexed word list. -/
structure SmartDictionary where
  map : List (Char × List Word)
  flat : List (Nat × Word)
deriving DecidableEq

/-- `_Builder::get_flat_indexed` (src/dictionary.rs:91-100): flatten the
groups in presentation order and `enumerate`. -/
def flatIndexed (groups : List (Char × List Word)) : List (Nat × Word) :=
  ((groups.map (fun g => g.2)).flatten).enum

/-- Assemble a `SmartDictionary` from a group presentation, as
`SmartDictionary::new` (src/dictionary.rs:184-191) does from the
builder. -/
def mkDict (groups : List (Char × List Word)) : SmartDictionary :=
  ⟨groups, flatIndexed groups⟩

/-- `SmartDictionary::new` for puzzle `p`, raw word list `raw`, and
`HashMap` presentation order `σ`. -/
def dictNew (p : LBPuzzle) (raw : List Word) (σ : List Char) : SmartDictionary :=
  mkDict (reorder σ (buildGroups p raw))

/-- `d` is a possible result of `SmartDictionary::new(p)` on raw word
list `raw`: some presentation order `σ` of the groups' keys produced it. -/
def IsBuild (p : LBPuzzle) (raw : List Word) (d : SmartDictionary) : Prop :=
  ∃ σ : List Char, σ.Perm ((buildGroups p raw).map (fun g => g.1)) ∧ d = dictNew p raw σ

/-- `SmartDictionary::get` (src/dictionary.rs:194-196). -/
def dget (d : SmartDictionary) (c : Char) : Option (List Word) :=
  (d.map.find? (fun g => g.1 == c)).map (fun g => g.2)

/-- `SmartDictionary::get_flat` (src/dictionary.rs:200-202). -/
def get_flat (d : SmartDictionary) : List Word :=
  d.flat.map (fun iw => iw.2)

/-- `SmartDictionary::get_flat_indexed` (src/dictionary.rs:205-209). -/
def get_flat_indexed (d : SmartDictionary) : List (Nat × Word) := d.flat

/-- `SmartDictionary::get_indexed` (src/dictionary.rs:213-230): locate
the first flat entry whose word equals the group's first word, then
slice the flat list to the group's length.  (`letter_words[0]` would
panic on an empty group; groups are never empty, and the branch is
modelled as `none`.) -/
def get_indexed (d : SmartDictionary) (c : Char) : Option (List (Nat × Word)) :=
  match dget d c with
  | none => none
  | some letter_words =>
    match letter_words.head? with
    | none => none
    | some hd =>
      match d.flat.findIdx? (fun iw => iw.2 == hd) with
      | none => none
      | some first_idx => some ((d.flat.drop first_idx).take letter_words.length)

/-- `SmartDictionary::get_word_by_idx` (src/dictionary.rs:233-235):
`Some(self.get_flat_indexed()[idx].1.clone())`.  The outer `Option`
models the panic of the out-of-bounds `Vec` indexing; the inner
`Option` is the Rust return type. -/
def get_word_by_idx (d : SmartDictionary) (idx : Nat) : Option (Option Word) :=
  (d.flat.get? idx).map (fun iw => some iw.2)

/-- `SmartDictionary::len` (src/dictionary.rs:238-240). -/
def dictLen (d : SmartDictionary) : Nat := d.flat.length

/-! ## The A* solver (`src/solvers/a_star.rs`) -/

/-- The search vertex of `AStarSolver` (src/solvers/a_star.rs:10-16).
The Rust `BTreeSet<char>` coverage compares as a set, hence `Finset`. -/
structure Vertex where
  letter : Option Char
  coverage : Finset Char
  words_path : Option (List Nat)
deriving DecidableEq

/-- `Vertex::new_start` (src/solvers/a_star.rs:31-33). -/
def startVertex : Vertex := ⟨none, ∅, none⟩

/-- `AStarSolver::successors` (src/solvers/a_star.rs:94-130) with edge
weight `ew`: `none` once the recorded path has exactly `max_words`
entries, otherwise one successor per dictionary word grouped under the
vertex's letter (the whole flat list for the start vertex). -/
def successors (p : LBPuzzle) (d : SmartDictionary) (ew : Nat) (v : Vertex) :
    Option (List (Vertex × Nat)) :=
  if (v.words_path.getD []).length = p.max_words then none
  else
    let next_words := match v.letter with
      | some c => (get_indexed d c).getD []
      | none => d.flat
    some (next_words.map (fun iw =>
      (⟨iw.2.getLast?, v.coverage ∪ iw.2.toFinset, some ((v.words_path.getD []) ++ [iw.1])⟩,
        ew)))

/-- `AStarSolver::heuristic` (src/solvers/a_star.rs:133-135):
`(L*S) - |coverage(v)|` (truncated ℕ subtraction; on the vertices the
search reaches, coverage never exceeds the board size). -/
def heuristic (p : LBPuzzle) (v : Vertex) : Nat :=
  n_letters p - v.coverage.card

/-- Vertices reachable by the `pathfinding::astar` search from the start
vertex through `AStarSolver::successors` (with the
`.unwrap_or(Vec::new())` of src/solvers/a_star.rs:158). -/
inductive Reach (p : LBPuzzle) (d : SmartDictionary) (ew : Nat) : Vertex → Prop
  | start : Reach p d ew startVertex
  | step {u v : Vertex} {w : Nat} :
      Reach p d ew u → (v, w) ∈ (successors p d ew u).getD [] → Reach p d ew v

/-- One search step: `v` is a successor of `u`. -/
def stepRel (p : LBPuzzle) (d : SmartDictionary) (ew : Nat) (u v : Vertex) : Prop :=
  ∃ w : Nat, (v, w) ∈ (successors p d ew u).getD []

/-- Contract of the external `pathfinding::prelude::astar` call
(src/solvers/a_star.rs:149-171): a returned `(path, cost)` starts at the
start vertex, follows `successors` edges, ends at a goal vertex
(`heuristic == 0`), and its cost is the sum of the traversed edge
weights — all of which equal `ew`. -/
def IsAstarResult (p : LBPuzzle) (d : SmartDictionary) (ew : Nat)
    (path : List Vertex) (cost : Nat) : Prop :=
  path.head? = some startVertex ∧
  List.Chain' (stepRel p d ew) path ∧
  (∃ vg, path.getLast? = some vg ∧ heuristic p vg = 0) ∧
  cost = (path.length - 1) * ew

/-- Resolution of a goal vertex's index path into words
(src/solvers/a_star.rs:194-202): `_words_path.expect(..)` and
`get_word_by_idx(*idx).unwrap()` both panic (`none`) on failure. -/
def vertex_solution (d : SmartDictionary) (v : Vertex) : Option (List Word) :=
  match v.words_path with
  | none => none
  | some idxs => idxs.mapM (fun i => (get_word_by_idx d i).bind id)

/-- The tail of `AStarSolver::_helper` (src/solvers/a_star.rs:173-206)
after the `astar` call returns `result`.  The outer `Option` models
panics: the `(path.len() - 1) != (cost / ((L * S) as u32))` sanity check
panics on violation, and `cost / (L*S)` itself panics (division by
zero) on a zero-letter board.  `some none` is the `None` return;
`some (some ws)` is a returned solution. -/
def helper_postprocess (p : LBPuzzle) (d : SmartDictionary)
    (result : Option (List Vertex × Nat)) : Option (Option (List Word)) :=
  match result with
  | none => some none
  | some (path, cost) =>
    if n_letters p = 0 then none
    else if path.length - 1 ≠ cost / n_letters p then none
    else
      match path.getLast? with
      | none => some none
      | some v =>
        match vertex_solution d v with
        | none => none
        | some ws => some (some ws)

/-! ## The Pre-Dictionary greedy DFS solver (`src/solvers/pre_dict.rs`) -/

/-- Merge a word sequence into one letter run the way
`validate_solution` does: the first word whole, every later word with
its first letter dropped. -/
def concatDrop : List Word → Word
  | [] => []
  | w :: ws => w ++ (ws.map (fun x => x.drop 1)).flatten

/-- Modelled from the spec: `LBPuzzle::validate_coverage`, called by the
Pre-Dictionary solver's success base case (src/solvers/pre_dict.rs:238),
is not present under src/.  §4.3 of the spec describes it as checking
that "the sequence already covers every board letter (checked via the
same adjacency-and-coverage walk used by the validator)", i.e. §4.1's
steps 3-4 on the merged letter sequence. -/
def validate_coverage (p : LBPuzzle) (words : List Word) : Bool :=
  match walkSeq p (concatDrop words) with
  | .error _ => false
  | .ok visited => visited.all (fun side => side.all id)

/-- The candidate words `_solve_helper` iterates over
(src/solvers/pre_dict.rs:244-259): the group keyed by the previous
word's last letter, or the whole flattened dictionary for the first
word; a missing group is the source's dead-end `return None`, modelled
as an empty candidate list. -/
def next_candidates (d : SmartDictionary) (words : List Word) : List Word :=
  match words.getLast? with
  | none => get_flat d
  | some w =>
    match w.getLast? with
    | none => []
    | some c =>
      match dget d c with
      | none => []
      | some ws => ws

/-- `_solve_helper` (src/solvers/pre_dict.rs:224-277) with its inner
candidate loop (lines 262-274).  The state `none` is an entry into the
helper (check base cases, then compute candidates); `some cands` is the
loop over the remaining candidates `cands`.  `fuel` bounds the number
of steps so the definition is total and computable; the source
recursion always terminates, so every actual run is reproduced by a
large enough fuel.  The result `none` is fuel exhaustion; `some r` is
the source's return value `r`. -/
def solve_step (p : LBPuzzle) (d : SmartDictionary) :
    Nat → List Word → Option (List Word) → Option (Option (List Word))
  | 0, _, _ => none
  | fuel + 1, words, none =>
    if p.max_words < words.length then some none
    else if validate_coverage p words then some (some words)
    else solve_step p d fuel words (some (next_candidates d words))
  | _ + 1, _, some [] => some none
  | fuel + 1, words, some (w :: ws) =>
    if words.contains w then solve_step p d fuel words (some ws)
    else
      match solve_step p d fuel (words ++ [w]) none with
      | none => none
      | some (some sol) => some (some sol)
      | some none => solve_step p d fuel words (some ws)

/-- `solve_pre_dict` (src/solvers/pre_dict.rs:217-222): build the smart
dictionary and run the helper on the empty sequence. -/
def solve_pre_dict (p : LBPuzzle) (raw : List Word) (σ : List Char) (fuel : Nat) :
    Option (Option (List Word)) :=
  solve_step p (dictNew p raw σ) fuel [] none

/-! ## The brute-force solver (`src/solvers/brute_force.rs`) -/

/-- `_Solution` (src/solvers/brute_force.rs:8-15). -/
structure BFSolution where
  words : List Word
  last_idx : Nat
  visited : List Bool
deriving DecidableEq

/-- `_Solution::end_word` (src/solvers/brute_force.rs:20-30): push a new
one-letter word holding the last word's last letter; `last_idx` and
`visited` are kept.  (The `unwrap`s cannot fail on queue elements, which
always hold a nonempty last word.) -/
def bf_end_word (s : BFSolution) : BFSolution :=
  ⟨s.words ++ [match s.words.getLast? with
    | some w => match w.getLast? with
      | some c => [c]
      | none => []
    | none => []], s.last_idx, s.visited⟩

/-- `_add_all_valid_letters` (src/solvers/brute_force.rs:102-137): for
each letter legal after `last_idx`, extend the current word by it and
enqueue the result if the extension is an exact dictionary word.  Note
the source never updates `last_idx`. -/
def bf_add_valid (p : LBPuzzle) (dict : List Word) (stub : BFSolution) : List BFSolution :=
  match stub.words.getLast? with
  | none => []
  | some curr =>
    (valid_letters p (stub.last_idx : Int)).filterMap (fun letter =>
      let next_word := curr ++ [letter]
      if dict.contains next_word then
        some ⟨stub.words.dropLast ++ [next_word], stub.last_idx, stub.visited⟩
      else none)

/-- The initial queue of `BruteForceSolver::solve`
(src/solvers/brute_force.rs:58-70): one single-letter candidate per
board letter. -/
def bf_init (p : LBPuzzle) : List BFSolution :=
  (all_letters p).enum.map (fun ic =>
    ⟨[[ic.2]], ic.1, List.replicate (n_letters p) false⟩)

/-- The work loop of `BruteForceSolver::solve`
(src/solvers/brute_force.rs:72-97), fuel-bounded.  `none` is fuel
exhaustion (the source loop may run unboundedly); `some none` is the
source's `None` return; `some (some ws)` is a returned solution. -/
def bf_run (p : LBPuzzle) (dict : List Word) : Nat → List BFSolution → Option (Option (List Word))
  | 0, _ => none
  | _ + 1, [] => some none
  | fuel + 1, s0 :: rest =>
    let s : BFSolution := ⟨s0.words, s0.last_idx, s0.visited.set s0.last_idx true⟩
    match s.words.getLast? with
    | none => none
    | some curr =>
      if 3 ≤ curr.length ∧ dict.contains curr then
        if s.visited.all id then some (some s.words)
        else
          bf_run p dict fuel
            ((rest ++ bf_add_valid p dict (bf_end_word s)) ++ bf_add_valid p dict s)
      else bf_run p dict fuel (rest ++ bf_add_valid p dict s)

/-! ## Derived predicates used in the statements -/

/-- The board index the dictionary filter assigns to a letter: the first
position of `c` in `all_letters` (src/dictionary.rs:150-154). -/
def letterIdx (p : LBPuzzle) (c : Char) : Option Nat :=
  (all_letters p).findIdx? (fun x => x == c)

/-- One adjacency step as the spec states it: the second letter lies on
a board side different from the first letter's side, expressed through
the source's own `valid_letters` at the first letter's board index. -/
def chainStepOk (p : LBPuzzle) (a b : Char) : Prop :=
  ∃ i, letterIdx p a = some i ∧ b ∈ valid_letters p (i : Int)

/-- Every pair of consecutive letters of `w` satisfies `chainStepOk`. -/
def wordChainOk (p : LBPuzzle) (w : Word) : Prop :=
  List.Chain' (chainStepOk p) w

/-- Structural residue of `IsBuild` that the query lemmas need: the
dictionary was assembled by `mkDict` from groups each of which is a
group of `buildGroups p raw`. -/
def DictInv (p : LBPuzzle) (raw : List Word) (d : SmartDictionary) : Prop :=
  ∃ G, d = mkDict G ∧ ∀ g ∈ G, g ∈ buildGroups p raw

/-- Invariant of the word sequences the greedy DFS builds: every word
passed the dictionary filter and each word starts with the previous
word's last letter. -/
def SeqOk (p : LBPuzzle) (ws : List Word) : Prop :=
  (∀ w ∈ ws, wordAccepted p w = true) ∧
  List.Chain' (fun w1 w2 => w2.head? = w1.getLast?) ws

/-- Invariant of the vertices the A* search reaches: the recorded index
path resolves to a word sequence `ws` that passed the dictionary
filter and chains head-to-tail; the vertex letter is the last letter of
the last word, and the coverage is the set of letters of `ws`. -/
def VertexOk (p : LBPuzzle) (d : SmartDictionary) (v : Vertex) : Prop :=
  ∃ ws : List Word,
    (v.words_path.getD []).mapM (fun i => (get_word_by_idx d i).bind id) = some ws ∧
    (∀ w ∈ ws, wordAccepted p w = true) ∧
    List.Chain' (fun w1 w2 => w2.head? = w1.getLast?) ws ∧
    v.letter = ws.getLast?.bind List.getLast? ∧
    v.coverage = (ws.flatten).toFinset

/-- Invariant of the brute-force work-queue elements: the visited bitmap
has one slot per board letter, the recorded `last_idx` is a board index,
no slot other than `last_idx` is ever set (the source never updates
`last_idx`), and on boards with at most one letter every word is a
single letter. -/
def BFInv (p : LBPuzzle) (q : BFSolution) : Prop :=
  q.visited.length = n_letters p ∧ q.last_idx < n_letters p ∧
  (∀ j, j ≠ q.last_idx → q.visited.get? j ≠ some true) ∧
  (n_letters p ≤ 1 → ∀ w ∈ q.words, w.length ≤ 1)

/-! ## Concrete instances used by the tests and scenarios -/

/-- The November 6, 2024 NYT puzzle `"erb uln imk jav"` with
`max_words = 6` (src/lib.rs test `test_validate_solution`). -/
def nov6Puzzle : LBPuzzle :=
  ⟨4, 3, 6, [['e', 'r', 'b'], ['u', 'l', 'n'], ['i', 'm', 'k'], ['j', 'a', 'v']]⟩

/-- A degenerate zero-sided puzzle, constructible through the public API
as `LBPuzzle::<0, 3>::from_str(0, "")`. -/
def emptyPuzzle : LBPuzzle := ⟨0, 3, 0, []⟩

/-- A 2-side, 1-letter-per-side board used as a small witness board. -/
def tinyPuzzle : LBPuzzle := ⟨2, 1, 1, [['a'], ['c']]⟩

/-- A tiny raw word list for the witness board: `aca` alternates sides
and covers the whole board. -/
def tinyRaw : List Word := [['a', 'c', 'a']]

/-- The tiny dictionary built with presentation order `['a']`. -/
def tinyDict : SmartDictionary := dictNew tinyPuzzle tinyRaw ['a']

/-! ## Theorems -/

/-! ### Generic list helpers -/

theorem mem_enum_get? {α : Type u} {l : List α} {i : Nat} {a : α}
    (h : (i, a) ∈ l.enum) : l.get? i = some a := by
  obtain ⟨hi, ha⟩ := List.mem_enum h
  rw [ha]
  simp [List.get?_eq_getElem?, List.getElem?_eq_getElem hi]

theorem get?_mem_enum {α : Type u} {l : List α} {i : Nat} {a : α}
    (h : l.get? i = some a) : (i, a) ∈ l.enum := by
  have : l.enum.get? i = some (i, a) := by
    have := List.get?_enumFrom 0 l i
    simp only [List.enum] at *
    rw [this, h]
    simp
  exact List.get?_mem this

theorem mem_enum_snd {α : Type u} {l : List α} {i : Nat} {a : α}
    (h : (i, a) ∈ l.enum) : a ∈ l :=
  List.get?_mem (mem_enum_get? h)

/-! ### Board geometry lemmas -/

theorem mem_valid_letters_all {p : LBPuzzle} {i : Int} {c : Char}
    (h : c ∈ valid_letters p i) : c ∈ all_letters p := by
  unfold valid_letters at h
  obtain ⟨sz, hsz, hc⟩ := List.mem_flatMap.1 h
  exact List.mem_flatten.2 ⟨sz.2, mem_enum_snd (List.mem_of_mem_filter hsz), hc⟩

theorem mem_idx_to_valids_all {p : LBPuzzle} {i : Int} {c : Char}
    (h : c ∈ idx_to_valids p i) : c ∈ all_letters p := by
  unfold idx_to_valids at h
  split_ifs at h <;> exact mem_valid_letters_all h

theorem all_letters_length {p : LBPuzzle} (hWf : p.Wf) :
    (all_letters p).length = n_letters p := by
  unfold all_letters n_letters
  rw [List.length_flatten]
  have hmap : p.sides.map List.length = List.map (Function.const _ p.L) p.sides :=
    List.map_congr_left (fun side hs => hWf.2 side hs)
  rw [hmap, List.map_const, List.sum_replicate, hWf.1, smul_eq_mul]

theorem valid_letters_eq_of_same_side {p : LBPuzzle} {i j : Int}
    (h : idx_to_side p i = idx_to_side p j) :
    valid_letters p i = valid_letters p j := by
  unfold valid_letters
  have hiq : ∀ sz : Nat × List Char,
      is_idx_on_side p i (sz.1 : Int) = is_idx_on_side p j (sz.1 : Int) := by
    intro sz
    unfold is_idx_on_side
    rw [h]
  exact congrArg (fun l : List (Nat × List Char) => l.flatMap (fun sz => sz.2))
    (List.filter_congr (fun sz _ => by rw [hiq sz]))

theorem idx_to_valids_eq_valid_letters {p : LBPuzzle} {i : Nat}
    (hi : i < n_letters p) : idx_to_valids p (i : Int) = valid_letters p (i : Int) := by
  have hL : 0 < p.L := by
    rcases Nat.eq_zero_or_pos p.L with h0 | h
    · rw [n_letters, h0, Nat.mul_zero] at hi
      exact absurd hi (Nat.not_lt_zero i)
    · exact h
  have hdiv : i / p.L < p.S := (Nat.div_lt_iff_lt_mul hL).2 (by
    have := hi
    rw [n_letters] at this
    omega)
  unfold idx_to_valids
  simp only [Int.toNat_natCast]
  rw [if_neg (by omega), if_pos hdiv]
  apply valid_letters_eq_of_same_side
  have hle : i / p.L * p.L ≤ i := Nat.div_mul_le_self i p.L
  unfold idx_to_side
  rw [if_pos ⟨by positivity, by exact_mod_cast Nat.lt_of_le_of_lt hle hi⟩,
    if_pos ⟨by positivity, by exact_mod_cast hi⟩]
  congr 1
  have h1 : ((i / p.L * p.L : Nat) : Int) / ((p.L : Nat) : Int) = ((i / p.L * p.L / p.L : Nat) : Int) :=
    (Int.ofNat_div _ _).symm
  have h2 : ((i : Nat) : Int) / ((p.L : Nat) : Int) = ((i / p.L : Nat) : Int) :=
    (Int.ofNat_div _ _).symm
  rw [h1, h2, Nat.mul_div_cancel _ hL]

/-! ### The dictionary filter -/

theorem checkWordFrom_props {p : LBPuzzle} (hWf : p.Wf) :
    ∀ (w : Word) (prev : Int), checkWordFrom p prev w = true →
      (∀ c ∈ w, c ∈ all_letters p) ∧ wordChainOk p w ∧
      (∀ c, w.head? = some c → c ∈ idx_to_valids p prev) := by
  intro w
  induction w with
  | nil =>
    intro prev _
    exact ⟨by simp, List.chain'_nil, by simp⟩
  | cons c rest ih =>
    intro prev hck
    unfold checkWordFrom at hck
    by_cases hc : (idx_to_valids p prev).contains c
    · rw [if_pos hc] at hck
      have hcmem : c ∈ idx_to_valids p prev := by
        simpa using hc
      cases hfi : (all_letters p).findIdx? (fun x => x == c) with
      | none => rw [hfi] at hck; exact absurd hck (by simp)
      | some i =>
        rw [hfi] at hck
        obtain ⟨hall, hchain, hhead⟩ := ih (i : Int) hck
        have hilt : i < n_letters p := by
          have := (List.findIdx?_eq_some_iff_findIdx_eq.1 hfi).1
          rwa [all_letters_length hWf] at this
        refine ⟨?_, ?_, ?_⟩
        · intro x hx
          rcases List.mem_cons.1 hx with rfl | hx'
          · exact mem_idx_to_valids_all hcmem
          · exact hall x hx'
        · show List.Chain' (chainStepOk p) (c :: rest)
          rw [List.chain'_cons']
          refine ⟨?_, hchain⟩
          intro b hb
          refine ⟨i, hfi, ?_⟩
          have := hhead b hb
          rwa [idx_to_valids_eq_valid_letters hilt] at this
        · intro x hx
          have hcx : c = x := Option.some.inj hx
          rwa [← hcx]
    · rw [if_neg hc] at hck
      exact absurd hck (by simp)

/-! ### Group construction lemmas -/

theorem insertDesc_perm (w : Word) (l : List Word) : (insertDesc w l).Perm (w :: l) := by
  induction l with
  | nil => exact List.Perm.refl _
  | cons x xs ih =>
    unfold insertDesc
    by_cases h : x.length ≤ w.length
    · rw [if_pos h]
    · rw [if_neg h]
      exact List.Perm.trans (ih.cons x) (List.Perm.swap w x xs)

theorem sortDesc_perm (ws : List Word) : (sortDesc ws).Perm ws := by
  induction ws with
  | nil => exact List.Perm.refl _
  | cons w ws ih => exact List.Perm.trans (insertDesc_perm w _) (ih.cons w)

theorem addWord_mem_words {groups : List (Char × List Word)} {w0 : Word}
    {g : Char × List Word} (hg : g ∈ addWord groups w0) {w : Word} (hw : w ∈ g.2) :
    (∃ g' ∈ groups, w ∈ g'.2) ∨ w = w0 := by
  unfold addWord at hg
  cases hh : w0.head? with
  | none => simp only [hh] at hg; exact Or.inl ⟨g, hg, hw⟩
  | some c =>
    simp only [hh] at hg
    by_cases hc : (groups.any fun g => g.1 == c) = true
    · rw [if_pos hc] at hg
      obtain ⟨g', hg', hEq⟩ := List.mem_map.1 hg
      by_cases hgc : (g'.1 == c) = true
      · rw [if_pos hgc] at hEq
        rw [← hEq] at hw
        rcases List.mem_append.1 hw with hw' | hw'
        · exact Or.inl ⟨g', hg', hw'⟩
        · exact Or.inr (List.mem_singleton.1 hw')
      · rw [if_neg hgc] at hEq
        rw [← hEq] at hw
        exact Or.inl ⟨g', hg', hw⟩
    · rw [if_neg hc] at hg
      rcases List.mem_append.1 hg with hg' | hg'
      · exact Or.inl ⟨g, hg', hw⟩
      · rw [List.mem_singleton.1 hg'] at hw
        exact Or.inr (List.mem_singleton.1 hw)

theorem foldl_addWord_mem {P : Word → Prop} :
    ∀ (ws : List Word) (groups : List (Char × List Word)),
      (∀ g ∈ groups, ∀ w ∈ g.2, P w) → (∀ w ∈ ws, P w) →
      ∀ g ∈ ws.foldl addWord groups, ∀ w ∈ g.2, P w := by
  intro ws
  induction ws with
  | nil => exact fun groups hg _ g hgmem w hw => hg g hgmem w hw
  | cons w0 ws ih =>
    intro groups hg hws
    refine ih (addWord groups w0) ?_ (fun w hw => hws w (List.mem_cons_of_mem _ hw))
    intro g hgmem w hw
    rcases addWord_mem_words hgmem hw with ⟨g', hg', hw'⟩ | rfl
    · exact hg g' hg' w hw'
    · exact hws w (List.mem_cons_self _ _)

theorem addWord_heads {groups : List (Char × List Word)} {w0 : Word}
    (hg : ∀ g ∈ groups, ∀ w ∈ g.2, w.head? = some g.1) :
    ∀ g ∈ addWord groups w0, ∀ w ∈ g.2, w.head? = some g.1 := by
  intro g hmem w hw
  unfold addWord at hmem
  cases hh : w0.head? with
  | none => simp only [hh] at hmem; exact hg g hmem w hw
  | some c =>
    simp only [hh] at hmem
    by_cases hc : (groups.any fun g => g.1 == c) = true
    · rw [if_pos hc] at hmem
      obtain ⟨g', hg', hEq⟩ := List.mem_map.1 hmem
      by_cases hgc : (g'.1 == c) = true
      · rw [if_pos hgc] at hEq
        rw [← hEq] at hw ⊢
        rcases List.mem_append.1 hw with hw' | hw'
        · exact hg g' hg' w hw'
        · rw [List.mem_singleton.1 hw', hh]
          exact congrArg some (beq_iff_eq.1 hgc).symm
      · rw [if_neg hgc] at hEq
        rw [← hEq] at hw ⊢
        exact hg g' hg' w hw
    · rw [if_neg hc] at hmem
      rcases List.mem_append.1 hmem with hg' | hg'
      · exact hg g hg' w hw
      · rw [List.mem_singleton.1 hg'] at hw ⊢
        rw [List.mem_singleton.1 hw, hh]

theorem foldl_addWord_heads :
    ∀ (ws : List Word) (groups : List (Char × List Word)),
      (∀ g ∈ groups, ∀ w ∈ g.2, w.head? = some g.1) →
      ∀ g ∈ ws.foldl addWord groups, ∀ w ∈ g.2, w.head? = some g.1 := by
  intro ws
  induction ws with
  | nil => exact fun groups hg => hg
  | cons w0 ws ih => exact fun groups hg => ih (addWord groups w0) (addWord_heads hg)

theorem addWord_keys {groups : List (Char × List Word)} {w0 : Word}
    (hg : (groups.map fun g => g.1).Nodup) :
    ((addWord groups w0).map fun g => g.1).Nodup := by
  unfold addWord
  cases hh : w0.head? with
  | none => exact hg
  | some c =>
    simp only []
    by_cases hc : (groups.any fun g => g.1 == c) = true
    · rw [if_pos hc]
      have hkeys : ((groups.map fun g => if g.1 == c then (g.1, g.2 ++ [w0]) else g).map
          fun g => g.1) = groups.map fun g => g.1 := by
        rw [List.map_map]
        refine List.map_congr_left (fun g _ => ?_)
        show (if (g.1 == c) = true then (g.1, g.2 ++ [w0]) else g).1 = g.1
        by_cases hgc : (g.1 == c) = true
        · rw [if_pos hgc]
        · rw [if_neg hgc]
      rw [hkeys]
      exact hg
    · rw [if_neg hc, List.map_append]
      rw [List.nodup_append]
      refine ⟨hg, List.nodup_singleton c, ?_⟩
      intro a ha hb
      rw [List.mem_singleton.1 hb] at ha
      obtain ⟨g, hgmem, hgc⟩ := List.mem_map.1 ha
      exact hc (List.any_eq_true.2 ⟨g, hgmem, by simp [hgc]⟩)

theorem foldl_addWord_keys :
    ∀ (ws : List Word) (groups : List (Char × List Word)),
      (groups.map fun g => g.1).Nodup →
      ((ws.foldl addWord groups).map fun g => g.1).Nodup := by
  intro ws
  induction ws with
  | nil => exact fun groups hg => hg
  | cons w0 ws ih => exact fun groups hg => ih (addWord groups w0) (addWord_keys hg)

theorem buildGroups_keysNodup (p : LBPuzzle) (raw : List Word) :
    ((buildGroups p raw).map fun g => g.1).Nodup := by
  unfold buildGroups
  rw [List.map_map]
  have : ((fun g : Char × List Word => g.1) ∘ fun g : Char × List Word =>
      (g.1, sortDesc g.2)) = fun g : Char × List Word => g.1 := rfl
  rw [this]
  exact foldl_addWord_keys _ [] (by simp)

theorem addWord_ne {groups : List (Char × List Word)} {w0 : Word}
    (hg : ∀ g ∈ groups, g.2 ≠ []) : ∀ g ∈ addWord groups w0, g.2 ≠ [] := by
  intro g hmem
  unfold addWord at hmem
  cases hh : w0.head? with
  | none => simp only [hh] at hmem; exact hg g hmem
  | some c =>
    simp only [hh] at hmem
    by_cases hc : (groups.any fun g => g.1 == c) = true
    · rw [if_pos hc] at hmem
      obtain ⟨g', hg', hEq⟩ := List.mem_map.1 hmem
      by_cases hgc : (g'.1 == c) = true
      · rw [if_pos hgc] at hEq
        rw [← hEq]
        simp
      · rw [if_neg hgc] at hEq
        rw [← hEq]
        exact hg g' hg'
    · rw [if_neg hc] at hmem
      rcases List.mem_append.1 hmem with hg' | hg'
      · exact hg g hg'
      · rw [List.mem_singleton.1 hg']
        simp

theorem foldl_addWord_ne :
    ∀ (ws : List Word) (groups : List (Char × List Word)),
      (∀ g ∈ groups, g.2 ≠ []) → ∀ g ∈ ws.foldl addWord groups, g.2 ≠ [] := by
  intro ws
  induction ws with
  | nil => exact fun groups hg => hg
  | cons w0 ws ih => exact fun groups hg => ih (addWord groups w0) (addWord_ne hg)

theorem buildGroups_props {p : LBPuzzle} {raw : List Word} {g : Char × List Word}
    (hg : g ∈ buildGroups p raw) :
    g.2 ≠ [] ∧ ∀ w ∈ g.2,
      w.head? = some g.1 ∧ wordAccepted p w = true ∧ w ∈ raw.map trimWs := by
  unfold buildGroups at hg
  obtain ⟨g0, hg0, hEq⟩ := List.mem_map.1 hg
  have hperm := sortDesc_perm g0.2
  constructor
  · rw [← hEq]
    intro hnil
    have h0 : g0.2 = [] := List.Perm.eq_nil (by rw [← hnil]; exact hperm.symm)
    exact foldl_addWord_ne ((raw.map trimWs).filter (wordAccepted p)) [] (by simp) g0 hg0 h0
  · intro w hw
    rw [← hEq] at hw
    have hw0 : w ∈ g0.2 := (hperm.mem_iff).1 hw
    have hhead := foldl_addWord_heads ((raw.map trimWs).filter (wordAccepted p)) []
      (by simp) g0 hg0 w hw0
    have hP := foldl_addWord_mem (P := fun w => w ∈ (raw.map trimWs).filter (wordAccepted p))
      ((raw.map trimWs).filter (wordAccepted p)) [] (by simp) (fun w hw => hw) g0 hg0 w hw0
    have hfil := List.mem_filter.1 hP
    rw [← hEq]
    exact ⟨hhead, hfil.2, hfil.1⟩

/-! ### Dictionary structure lemmas -/

theorem isBuild_dictInv {p : LBPuzzle} {raw : List Word} {d : SmartDictionary}
    (h : IsBuild p raw d) : DictInv p raw d := by
  obtain ⟨σ, hperm, rfl⟩ := h
  refine ⟨reorder σ (buildGroups p raw), rfl, ?_⟩
  intro g hgmem
  obtain ⟨c, _, hfind⟩ := List.mem_filterMap.1 hgmem
  exact List.mem_of_find?_eq_some hfind

theorem enum_get?_self {α : Type u} {l : List α} {i : Nat} {a : α}
    (h : (i, a) ∈ l.enum) : l.enum.get? i = some (i, a) := by
  have h1 := mem_enum_get? h
  have h2 := List.get?_enumFrom 0 l i
  simp only [List.enum] at *
  rw [h2, h1]
  simp

theorem dictInv_flat_mem {p : LBPuzzle} {raw : List Word} {d : SmartDictionary}
    (h : DictInv p raw d) {i : Nat} {w : Word} (hm : (i, w) ∈ d.flat) :
    wordAccepted p w = true ∧ w ∈ raw.map trimWs ∧ d.flat.get? i = some (i, w) := by
  obtain ⟨G, rfl, hG⟩ := h
  have hw : w ∈ (G.map (fun g => g.2)).flatten := mem_enum_snd hm
  obtain ⟨ws, hws, hwmem⟩ := List.mem_flatten.1 hw
  obtain ⟨g, hgmem, hEq⟩ := List.mem_map.1 hws
  rw [← hEq] at hwmem
  have hp := (buildGroups_props (hG g hgmem)).2 w hwmem
  exact ⟨hp.2.1, hp.2.2, enum_get?_self hm⟩

theorem find?_split {α : Type u} {q : α → Bool} {l : List α} {a : α}
    (h : List.find? q l = some a) :
    ∃ l1 l2, l = l1 ++ a :: l2 ∧ ∀ x ∈ l1, q x = false := by
  induction l with
  | nil => exact absurd h (by simp)
  | cons b bs ih =>
    rw [List.find?_cons] at h
    cases hqb : q b with
    | true =>
      rw [hqb] at h
      refine ⟨[], bs, ?_, by simp⟩
      rw [Option.some.inj h]
      rfl
    | false =>
      rw [hqb] at h
      obtain ⟨l1, l2, hEq, hfa⟩ := ih h
      refine ⟨b :: l1, l2, by rw [hEq]; rfl, ?_⟩
      intro x hx
      rcases List.mem_cons.1 hx with rfl | hx'
      · exact hqb
      · exact hfa x hx'

theorem findIdx?_append_of_none {α : Type u} {q : α → Bool} {xs ys : List α}
    (h : ∀ x ∈ xs, q x = false) :
    List.findIdx? q (xs ++ ys) = (List.findIdx? q ys).map (· + xs.length) := by
  rw [List.findIdx?_append, List.findIdx?_eq_none_iff.2 h, Option.none_or]

theorem findIdx?_cons_true {α : Type u} {q : α → Bool} {a : α} {l : List α}
    (h : q a = true) : List.findIdx? q (a :: l) = some 0 := by
  rw [List.findIdx?_cons, if_pos h]

theorem mem_enumFrom_snd {α : Type u} {l : List α} {n i : Nat} {a : α}
    (h : (i, a) ∈ List.enumFrom n l) : a ∈ l := by
  obtain ⟨h1, h2, h3⟩ := List.mem_enumFrom h
  rw [h3]
  exact List.getElem_mem _

/-- The `get_indexed` slice consists of flat entries of the group keyed
by `c`: every returned pair is a flat entry whose word starts with `c`. -/
theorem get_indexed_spec {p : LBPuzzle} {raw : List Word} {d : SmartDictionary}
    (h : DictInv p raw d) {c : Char} {l : List (Nat × Word)}
    (hg : get_indexed d c = some l) :
    ∀ iw ∈ l, iw ∈ d.flat ∧ iw.2.head? = some c := by
  obtain ⟨G, rfl, hG⟩ := h
  unfold get_indexed at hg
  cases hlw : dget (mkDict G) c with
  | none =>
    simp only [hlw] at hg
    exact absurd hg (by simp)
  | some lw =>
    simp only [hlw] at hg
    cases hhd : lw.head? with
    | none =>
      simp only [hhd] at hg
      exact absurd hg (by simp)
    | some hd =>
      simp only [hhd] at hg
      -- unpack the map lookup into a split of the group list
      unfold dget at hlw
      rw [show (mkDict G).map = G from rfl] at hlw
      cases hfind : G.find? (fun g => g.1 == c) with
      | none => rw [hfind] at hlw; exact absurd hlw (by simp)
      | some g0 =>
        rw [hfind] at hlw
        simp only [Option.map_some'] at hlw
        have hlw' : g0.2 = lw := Option.some.inj hlw
        have hkey : g0.1 = c := by
          have := List.find?_some hfind
          exact beq_iff_eq.1 (by simpa using this)
        obtain ⟨A, B, hGeq, hA⟩ := find?_split hfind
        -- group contents and heads
        have hdmem : hd ∈ g0.2 := by
          rw [hlw']
          exact List.mem_of_mem_head? hhd
        have hdhead : hd.head? = some c := by
          rw [← hkey]
          exact ((buildGroups_props (hG g0 (by rw [hGeq]; simp))).2 hd hdmem).1
        -- flat layout
        have hflat : (mkDict G).flat =
            ((G.map (fun g => g.2)).flatten).enum := rfl
        have hGsplit : (G.map (fun g => g.2)).flatten =
            ((A.map (fun g => g.2)).flatten) ++ (g0.2 ++ ((B.map (fun g => g.2)).flatten)) := by
          rw [hGeq]
          simp [List.flatten_append]
        -- every word in the prefix has a head different from c
        have hpre : ∀ iw ∈ ((A.map (fun g => g.2)).flatten).enum,
            (fun iw : Nat × Word => iw.2 == hd) iw = false := by
          rintro ⟨j, w⟩ hjw
          have hwA : w ∈ (A.map (fun g => g.2)).flatten := mem_enum_snd hjw
          obtain ⟨ws, hws, hwmem⟩ := List.mem_flatten.1 hwA
          obtain ⟨gA, hgA, hEqA⟩ := List.mem_map.1 hws
          rw [← hEqA] at hwmem
          have hwhead : w.head? = some gA.1 :=
            ((buildGroups_props (hG gA (by rw [hGeq]; simp [hgA]))).2 w hwmem).1
          have hkeyA : (gA.1 == c) = false := hA gA hgA
          have hne : w ≠ hd := by
            intro hcontra
            rw [hcontra, hdhead] at hwhead
            exact absurd (Option.some.inj hwhead).symm (beq_eq_false_iff_ne.1 hkeyA)
          simpa using hne
        -- compute the findIdx? result
        set X : List Word := (A.map (fun g => g.2)).flatten with hX
        set Z : List Word := (B.map (fun g => g.2)).flatten with hZ
        have henum : ((G.map (fun g => g.2)).flatten).enum =
            X.enum ++ (List.enumFrom X.length g0.2 ++ List.enumFrom (X.length + g0.2.length) Z) := by
          rw [hGsplit, List.enum_append, List.enumFrom_append]
        obtain ⟨lw', hlwcons⟩ : ∃ lw', g0.2 = hd :: lw' := by
          rw [hlw']
          cases lw with
          | nil => exact absurd hhd (by simp)
          | cons x xs => exact ⟨xs, by rw [Option.some.inj hhd]⟩
        have hfirst : ((G.map (fun g => g.2)).flatten).enum.findIdx?
            (fun iw => iw.2 == hd) = some X.length := by
          rw [henum]
          rw [findIdx?_append_of_none hpre]
          have : List.enumFrom X.length g0.2 ++ List.enumFrom (X.length + g0.2.length) Z =
              (X.length, hd) :: (List.enumFrom (X.length + 1) lw' ++
                List.enumFrom (X.length + g0.2.length) Z) := by
            rw [hlwcons]
            rfl
          rw [this, findIdx?_cons_true (by simp)]
          simp [List.enum_length, List.enumFrom_length]
        simp only [hflat, hfirst] at hg
        -- identify the returned slice
        have hlen1 : X.enum.length = X.length := by
          simp [List.enum_length, List.enumFrom_length]
        have hlen2 : (List.enumFrom X.length g0.2).length = lw.length := by
          rw [List.enumFrom_length, hlw']
        have hslice : ((((G.map (fun g => g.2)).flatten).enum).drop X.length).take lw.length =
            List.enumFrom X.length g0.2 := by
          rw [henum]
          have hdrop : (X.enum ++ (List.enumFrom X.length g0.2 ++
              List.enumFrom (X.length + g0.2.length) Z)).drop X.length =
              List.enumFrom X.length g0.2 ++ List.enumFrom (X.length + g0.2.length) Z := by
            have hdl := List.drop_left X.enum (List.enumFrom X.length g0.2 ++
              List.enumFrom (X.length + g0.2.length) Z)
            rwa [hlen1] at hdl
          rw [hdrop]
          have htake := List.take_left (List.enumFrom X.length g0.2)
            (List.enumFrom (X.length + g0.2.length) Z)
          rwa [hlen2] at htake
        rw [hslice] at hg
        rw [← Option.some.inj hg]
        rintro ⟨j, w⟩ hjw
        constructor
        · show (j, w) ∈ (mkDict G).flat
          rw [hflat, henum]
          exact List.mem_append.2 (Or.inr (List.mem_append.2 (Or.inl hjw)))
        · have hwmem : w ∈ g0.2 := mem_enumFrom_snd hjw
          rw [← hkey]
          exact ((buildGroups_props (hG g0 (by rw [hGeq]; simp))).2 w hwmem).1

theorem reorder_self :
    ∀ G : List (Char × List Word), ((G.map fun g => g.1).Nodup) →
      reorder (G.map fun g => g.1) G = G := by
  intro G
  induction G with
  | nil => intro _; rfl
  | cons g G' ih =>
    intro hnd
    have hnd2 : (g.1 :: G'.map fun g => g.1).Nodup := by
      have hmc : (g :: G').map (fun g => g.1) = g.1 :: G'.map (fun g => g.1) := rfl
      rwa [hmc] at hnd
    obtain ⟨hnotin, hnd'⟩ := List.nodup_cons.1 hnd2
    unfold reorder
    have hfind : List.find? (fun x => x.1 == g.1) (g :: G') = some g := by
      simp [List.find?_cons]
    simp only [List.map_cons, List.filterMap_cons, hfind]
    congr 1
    have hcongr : ∀ c ∈ G'.map (fun g => g.1),
        List.find? (fun x => x.1 == c) (g :: G') = List.find? (fun x => x.1 == c) G' := by
      intro c hc
      have hne : g.1 ≠ c := by
        intro hcontra
        apply hnotin
        rw [hcontra]
        exact hc
      have hb : (g.1 == c) = false := beq_eq_false_iff_ne.2 hne
      simp only [List.find?_cons, hb]
    exact (List.filterMap_congr hcongr).trans (ih hnd')

theorem reorder_perm {σ : List Char} {G : List (Char × List Word)}
    (hσ : σ.Perm (G.map fun g => g.1)) (hnd : (G.map fun g => g.1).Nodup) :
    (reorder σ G).Perm G := by
  have h1 := List.Perm.filterMap (fun c => G.find? (fun g => g.1 == c)) hσ
  rw [show List.filterMap (fun c => G.find? fun g => g.1 == c) (G.map fun g => g.1) =
      reorder (G.map fun g => g.1) G from rfl, reorder_self G hnd] at h1
  exact h1

theorem isBuild_flat_words {p : LBPuzzle} {raw : List Word} {d : SmartDictionary}
    (h : IsBuild p raw d) :
    (get_flat d).Perm ((buildGroups p raw).map (fun g => g.2)).flatten := by
  obtain ⟨σ, hperm, rfl⟩ := h
  show ((((reorder σ (buildGroups p raw)).map (fun g => g.2)).flatten).enum.map
    (fun iw => iw.2)).Perm _
  rw [List.enum_map_snd]
  exact List.Perm.flatten (List.Perm.map _ (reorder_perm hperm (buildGroups_keysNodup p raw)))

/-- C4: `LBPuzzle::from_str` succeeds exactly when the whitespace-split
token count equals `S` and every token has exactly `L` characters
(otherwise it returns an input error); on success every letter position
of the returned puzzle is assigned from the input, in order, so the
shape invariant holds and nothing is truncated.  The function is total:
no input panics. -/
theorem from_str_spec (S L mw : Nat) (input : List Char) :
    ((∃ p, from_str S L mw input = .ok p) ↔
      ((splitWs input).length = S ∧ ∀ t ∈ splitWs input, t.length = L)) ∧
    (∀ p, from_str S L mw input = .ok p →
      p.S = S ∧ p.L = L ∧ p.max_words = mw ∧ p.sides = splitWs input ∧ p.Wf) := by
  constructor
  · constructor
    · rintro ⟨p, hp⟩
      unfold from_str at hp
      by_cases h1 : (splitWs input).length ≠ S
      · rw [if_pos h1] at hp
        exact absurd hp (by simp)
      · rw [if_neg h1] at hp
        by_cases h2 : ((splitWs input).any fun t => decide (t.length ≠ L)) = true
        · rw [if_pos h2] at hp
          exact absurd hp (by simp)
        · push_neg at h1
          refine ⟨h1, fun t ht => ?_⟩
          by_contra hne
          exact h2 (List.any_eq_true.2 ⟨t, ht, by simpa using hne⟩)
    · rintro ⟨h1, h2⟩
      refine ⟨⟨S, L, mw, splitWs input⟩, ?_⟩
      unfold from_str
      rw [if_neg (by simp [h1]), if_neg ?_]
      simp only [List.any_eq_true, decide_eq_true_eq, not_exists, not_and]
      intro t ht
      simp [h2 t ht]
  · intro p hp
    unfold from_str at hp
    by_cases h1 : (splitWs input).length ≠ S
    · rw [if_pos h1] at hp
      exact absurd hp (by simp)
    · rw [if_neg h1] at hp
      by_cases h2 : ((splitWs input).any fun t => decide (t.length ≠ L)) = true
      · rw [if_pos h2] at hp
        exact absurd hp (by simp)
      · rw [if_neg h2] at hp
        cases hp
        push_neg at h1
        refine ⟨rfl, rfl, rfl, rfl, h1, fun side hs => ?_⟩
        by_contra hne
        exact h2 (List.any_eq_true.2 ⟨side, hs, by simpa using hne⟩)

/-- Witness for C4 at the concrete malformed and well-formed scenario
inputs. -/
theorem from_str_spec_witness :
    from_str 4 3 6 ("erb uln imk jav".toList) = .ok nov6Puzzle ∧
    (∃ e, from_str 4 3 6 ("erb uln imk".toList) = .error e) ∧
    nov6Puzzle.S = 4 ∧ nov6Puzzle.Wf := by
  have h2 := (from_str_spec 4 3 6 ("erb uln imk jav".toList)).2 nov6Puzzle (by decide)
  refine ⟨by decide, ⟨"Wrong number of sides.", by decide⟩, h2.1, h2.2.2.2.2⟩

/-- C9: `validate_solution` panics (models as `none`) on the empty word
list — `solution.get(0).unwrap()` — rather than returning a
`BadSolutionError`; for every nonempty solution it returns a genuine
`Ok`/`Err` result. -/
theorem validate_solution_empty_panics (p : LBPuzzle) (sol : List Word) :
    (sol = [] → validate_solution p sol = none) ∧
    (sol ≠ [] → ∃ r, validate_solution p sol = some r) := by
  constructor
  · rintro rfl; rfl
  · intro h
    obtain ⟨w, ws, rfl⟩ : ∃ w ws, sol = w :: ws := by
      cases sol with
      | nil => exact absurd rfl h
      | cons a l => exact ⟨a, l, rfl⟩
    unfold validate_solution
    cases hf : (w :: ws).find? (fun x => decide (x.length < 3)) with
    | some u => exact ⟨_, rfl⟩
    | none =>
      cases hc : chainWords w ws with
      | error e => simp only [hc]; exact ⟨_, rfl⟩
      | ok seq =>
        simp only [hc]
        cases hw : walkSeq p seq with
        | error e => simp only [hw]; exact ⟨_, rfl⟩
        | ok visited =>
          simp only [hw]
          by_cases hv : (visited.all fun side => side.all id) = true
          · rw [if_pos hv]; exact ⟨_, rfl⟩
          · rw [if_neg hv]; exact ⟨_, rfl⟩

/-- Witness for C9 on a concrete nonempty solution. -/
theorem validate_solution_empty_panics_witness :
    validate_solution nov6Puzzle [] = none ∧
    (([['a']] : List Word) ≠ [] ∧ ∃ r, validate_solution nov6Puzzle [['a']] = some r) :=
  ⟨(validate_solution_empty_panics nov6Puzzle []).1 rfl,
    by decide, (validate_solution_empty_panics nov6Puzzle [['a']]).2 (by decide)⟩

/-- C10: `get_word_by_idx` never returns Rust's `None`: on any in-bounds
index it returns `Some` of the word at that flat index, and on any
out-of-bounds index it panics (`none` in the model) on the vector
indexing despite declaring an `Option` return type. -/
theorem get_word_by_idx_spec (d : SmartDictionary) (idx : Nat) :
    (∀ iw, d.flat.get? idx = some iw → get_word_by_idx d idx = some (some iw.2)) ∧
    (idx < dictLen d → (get_word_by_idx d idx).isSome = true) ∧
    (dictLen d ≤ idx → get_word_by_idx d idx = none) ∧
    get_word_by_idx d idx ≠ some none := by
  refine ⟨?_, ?_, ?_, ?_⟩
  · intro iw hiw
    unfold get_word_by_idx
    rw [hiw]
    rfl
  · intro h
    have h' : d.flat.get? idx = some (d.flat.get ⟨idx, h⟩) := List.get?_eq_get h
    unfold get_word_by_idx
    rw [h']
    rfl
  · intro h
    have h' : d.flat.get? idx = none := List.get?_eq_none.2 (by exact h)
    unfold get_word_by_idx
    rw [h']
    rfl
  · intro hcontra
    unfold get_word_by_idx at hcontra
    cases h : d.flat.get? idx with
    | none => rw [h] at hcontra; exact Option.noConfusion hcontra
    | some iw =>
      rw [h] at hcontra
      exact Option.noConfusion (Option.some.inj hcontra)

/-- Witness for C10 on the tiny dictionary (one word, index 0 in
bounds, index 5 out of bounds). -/
theorem get_word_by_idx_spec_witness :
    (tinyDict.flat.get? 0 = some (0, ['a', 'c', 'a']) ∧
      get_word_by_idx tinyDict 0 = some (some ['a', 'c', 'a'])) ∧
    (dictLen tinyDict ≤ 5 ∧ get_word_by_idx tinyDict 5 = none) :=
  ⟨⟨by decide, (get_word_by_idx_spec tinyDict 0).1 (0, ['a', 'c', 'a']) (by decide)⟩,
    by decide, (get_word_by_idx_spec tinyDict 5).2.2.1 (by decide)⟩

/-- C2 (amended): on the `"erb uln imk jav"` / `max_words = 6` puzzle
the validator accepts `["juvenile", "embark"]` and rejects `["poop"]`,
`["ju", "uv"]` and `["juvenile"]` — but the reason for `["poop"]` is
`"Failed to find letter p"` (the letter is not on the board, detected
during the walk), not "not all letters used"; the other two reasons are
as claimed. -/
theorem nov6_validate_scenarios :
    from_str 4 3 6 ("erb uln imk jav".toList) = .ok nov6Puzzle ∧
    validate_solution nov6Puzzle ["juvenile".toList, "embark".toList] = some (.ok ()) ∧
    validate_solution nov6Puzzle ["poop".toList] =
      some (.error "Failed to find letter p") ∧
    validate_solution nov6Puzzle ["ju".toList, "uv".toList] =
      some (.error "ju is <3 letters long") ∧
    validate_solution nov6Puzzle ["juvenile".toList] =
      some (.error "Not all letters were used.") := by
  refine ⟨by decide, by decide, by decide, by decide, by decide⟩

/-- Counterexample to C2 as stated: rejecting `["poop"]` does not report
"not all letters used" — the walk fails first, on the off-board letter
`p`. -/
theorem nov6_poop_reason_counterexample :
    validate_solution nov6Puzzle ["poop".toList] =
      some (.error "Failed to find letter p") ∧
    validate_solution nov6Puzzle ["poop".toList] ≠
      some (.error "Not all letters were used.") :=
  ⟨by decide, by decide⟩

/-- C3 evidence: the sanity check of `AStarSolver::_helper` divides the
total cost by the board size `S*L = 12`, not by the configured edge
weight.  At edge weight 6 (factor 0.5) a found 2-word solution has a
3-vertex path and cost `12 = (3-1)*6`; the spec's invariant
`#words = cost / edge_weight = 2` holds, yet the code computes
`cost / (S*L) = 1 ≠ 2` and panics (`none`) instead of returning the
solution. -/
theorem a_star_sanity_check_wrong_divisor :
    (12 = (3 - 1) * 6 ∧ (3 - 1 : Nat) = 12 / 6) ∧
    helper_postprocess nov6Puzzle (mkDict [])
      (some ([startVertex, startVertex, startVertex], 12)) = none :=
  ⟨⟨rfl, rfl⟩, by decide⟩

/-- C5: every word retained by `SmartDictionary::new` has length at
least 3, every pair of its consecutive letters steps to a different
side (`chainStepOk`, stated through the source's `valid_letters` at the
first letter's board index), and all its letters are board letters;
conversely any word violating length, adjacency, or the on-board
condition is excluded. -/
theorem smart_dict_filter_spec (p : LBPuzzle) (hWf : p.Wf) (raw : List Word)
    (d : SmartDictionary) (hd : IsBuild p raw d) (w : Word) :
    (w ∈ get_flat d → 3 ≤ w.length ∧ wordChainOk p w ∧ ∀ c ∈ w, c ∈ all_letters p) ∧
    ((w.length < 3 ∨ ¬ wordChainOk p w ∨ ∃ c ∈ w, c ∉ all_letters p) →
      w ∉ get_flat d) := by
  have hmain : w ∈ get_flat d →
      3 ≤ w.length ∧ wordChainOk p w ∧ ∀ c ∈ w, c ∈ all_letters p := by
    intro hmem
    obtain ⟨iw, hiw, hsnd⟩ := List.mem_map.1 hmem
    rcases iw with ⟨i, w'⟩
    have hw' : w' = w := hsnd
    rw [hw'] at hiw
    have hp := dictInv_flat_mem (isBuild_dictInv hd) hiw
    have hacc := hp.1
    unfold wordAccepted at hacc
    rw [Bool.and_eq_true] at hacc
    have h3 : 3 ≤ w.length := by simpa using hacc.1
    have hprops := checkWordFrom_props hWf w (-1) hacc.2
    exact ⟨h3, hprops.2.1, hprops.1⟩
  refine ⟨hmain, ?_⟩
  intro hviol hmem
  obtain ⟨h3, hchain, hlet⟩ := hmain hmem
  rcases hviol with h | h | ⟨c, hc, hcn⟩
  · omega
  · exact h hchain
  · exact hcn (hlet c hc)

/-- Witness for C5 on the tiny board and dictionary. -/
theorem smart_dict_filter_spec_witness :
    IsBuild tinyPuzzle tinyRaw tinyDict ∧ tinyPuzzle.Wf ∧
    (['a', 'c', 'a'] : Word) ∈ get_flat tinyDict ∧
    (3 ≤ (['a', 'c', 'a'] : Word).length ∧ wordChainOk tinyPuzzle ['a', 'c', 'a']) ∧
    'c' ∈ all_letters tinyPuzzle := by
  have hb : IsBuild tinyPuzzle tinyRaw tinyDict := ⟨['a'], by decide, rfl⟩
  have h := (smart_dict_filter_spec tinyPuzzle (by decide) tinyRaw tinyDict hb
    ['a', 'c', 'a']).1 (by decide)
  exact ⟨hb, by decide, by decide, ⟨h.1, h.2.1⟩, h.2.2 'c' (by decide)⟩

/-- C6: every `(i, w)` pair of `get_flat_indexed` satisfies
`get_word_by_idx i = Some w`, and every pair of any `get_indexed`
group carries the same global index, so it satisfies the identity
too. -/
theorem get_indexed_global_idx (p : LBPuzzle) (raw : List Word) (d : SmartDictionary)
    (hd : IsBuild p raw d) (c : Char) (l : List (Nat × Word)) (i : Nat) (w : Word) :
    ((i, w) ∈ get_flat_indexed d → get_word_by_idx d i = some (some w)) ∧
    (get_indexed d c = some l → (i, w) ∈ l → get_word_by_idx d i = some (some w)) := by
  have hpart1 : (i, w) ∈ get_flat_indexed d → get_word_by_idx d i = some (some w) := by
    intro hm
    have h3 := (dictInv_flat_mem (isBuild_dictInv hd) hm).2.2
    unfold get_word_by_idx
    rw [h3]
    rfl
  refine ⟨hpart1, fun hgi hm => ?_⟩
  exact hpart1 (get_indexed_spec (isBuild_dictInv hd) hgi (i, w) hm).1

/-- Witness for C6 on the tiny dictionary. -/
theorem get_indexed_global_idx_witness :
    IsBuild tinyPuzzle tinyRaw tinyDict ∧
    (0, (['a', 'c', 'a'] : Word)) ∈ get_flat_indexed tinyDict ∧
    get_indexed tinyDict 'a' = some [(0, ['a', 'c', 'a'])] ∧
    get_word_by_idx tinyDict 0 = some (some ['a', 'c', 'a']) := by
  have hb : IsBuild tinyPuzzle tinyRaw tinyDict := ⟨['a'], by decide, rfl⟩
  refine ⟨hb, by decide, by decide, ?_⟩
  exact (get_indexed_global_idx tinyPuzzle tinyRaw tinyDict hb 'a'
    [(0, ['a', 'c', 'a'])] 0 ['a', 'c', 'a']).1 (by decide)

/-- C8: two builds of the dictionary from the same puzzle and the same
raw word list have the same `len()` and the same `get_flat_indexed`
word contents up to the `HashMap`-dependent presentation order
(a permutation); within one build an index always resolves through
`get_word_by_idx` to that build's own flat entry, so indices are only
meaningful relative to the build that produced them. -/
theorem rebuild_deterministic (p : LBPuzzle) (raw : List Word) (d1 d2 : SmartDictionary)
    (h1 : IsBuild p raw d1) (h2 : IsBuild p raw d2) :
    dictLen d1 = dictLen d2 ∧ (get_flat d1).Perm (get_flat d2) ∧
    (∀ i w, (i, w) ∈ get_flat_indexed d1 → get_word_by_idx d1 i = some (some w)) := by
  have hp1 := isBuild_flat_words h1
  have hp2 := isBuild_flat_words h2
  have hperm : (get_flat d1).Perm (get_flat d2) := hp1.trans hp2.symm
  refine ⟨?_, hperm, ?_⟩
  · have hl1 : dictLen d1 = (get_flat d1).length := by
      unfold dictLen get_flat
      rw [List.length_map]
    have hl2 : dictLen d2 = (get_flat d2).length := by
      unfold dictLen get_flat
      rw [List.length_map]
    rw [hl1, hl2, hperm.length_eq]
  · intro i w hm
    have h3 := (dictInv_flat_mem (isBuild_dictInv h1) hm).2.2
    unfold get_word_by_idx
    rw [h3]
    rfl

/-- Witness for C8: the two-word dictionary on the tiny board built
with the two possible group orders. -/
theorem rebuild_deterministic_witness :
    IsBuild tinyPuzzle [['a', 'c', 'a'], ['c', 'a', 'c']]
      (dictNew tinyPuzzle [['a', 'c', 'a'], ['c', 'a', 'c']] ['a', 'c']) ∧
    IsBuild tinyPuzzle [['a', 'c', 'a'], ['c', 'a', 'c']]
      (dictNew tinyPuzzle [['a', 'c', 'a'], ['c', 'a', 'c']] ['c', 'a']) ∧
    dictLen (dictNew tinyPuzzle [['a', 'c', 'a'], ['c', 'a', 'c']] ['a', 'c']) =
      dictLen (dictNew tinyPuzzle [['a', 'c', 'a'], ['c', 'a', 'c']] ['c', 'a']) ∧
    (get_flat (dictNew tinyPuzzle [['a', 'c', 'a'], ['c', 'a', 'c']] ['a', 'c'])).Perm
      (get_flat (dictNew tinyPuzzle [['a', 'c', 'a'], ['c', 'a', 'c']] ['c', 'a'])) := by
  have hb1 : IsBuild tinyPuzzle [['a', 'c', 'a'], ['c', 'a', 'c']]
      (dictNew tinyPuzzle [['a', 'c', 'a'], ['c', 'a', 'c']] ['a', 'c']) :=
    ⟨['a', 'c'], by decide, rfl⟩
  have hb2 : IsBuild tinyPuzzle [['a', 'c', 'a'], ['c', 'a', 'c']]
      (dictNew tinyPuzzle [['a', 'c', 'a'], ['c', 'a', 'c']] ['c', 'a']) :=
    ⟨['c', 'a'], by decide, rfl⟩
  have h := rebuild_deterministic tinyPuzzle [['a', 'c', 'a'], ['c', 'a', 'c']] _ _ hb1 hb2
  exact ⟨hb1, hb2, h.1, h.2.1⟩

/-! ### A* search lemmas -/

theorem successors_mem_elim {p : LBPuzzle} {d : SmartDictionary} {ew : Nat}
    {u v : Vertex} {wt : Nat}
    (hmem : (v, wt) ∈ (successors p d ew u).getD []) :
    (u.words_path.getD []).length ≠ p.max_words ∧
    ∃ iw : Nat × Word,
      iw ∈ (match u.letter with
        | some c => (get_indexed d c).getD []
        | none => d.flat) ∧
      v = ⟨iw.2.getLast?, u.coverage ∪ iw.2.toFinset,
        some ((u.words_path.getD []) ++ [iw.1])⟩ ∧
      wt = ew := by
  unfold successors at hmem
  by_cases hlen : (u.words_path.getD []).length = p.max_words
  · rw [if_pos hlen] at hmem
    exact absurd hmem (by simp)
  · rw [if_neg hlen] at hmem
    simp only [Option.getD_some] at hmem
    obtain ⟨iw, hiw, hEq⟩ := List.mem_map.1 hmem
    obtain ⟨h1, h2⟩ := Prod.ext_iff.1 hEq
    exact ⟨hlen, iw, hiw, h1.symm, h2.symm⟩

theorem reach_path_le {p : LBPuzzle} {d : SmartDictionary} {ew : Nat} {v : Vertex}
    (h : Reach p d ew v) : (v.words_path.getD []).length ≤ p.max_words := by
  induction h with
  | start => simp [startVertex]
  | @step u v' wt hu hmem ih =>
    obtain ⟨hne, iw, _, hv, _⟩ := successors_mem_elim hmem
    rw [hv]
    simp only [Option.getD_some, List.length_append, List.length_singleton]
    have hlt : (u.words_path.getD []).length < p.max_words := lt_of_le_of_ne ih hne
    omega

theorem chain_reach_aux {p : LBPuzzle} {d : SmartDictionary} {ew : Nat} :
    ∀ (rest : List Vertex) (u v : Vertex), Reach p d ew u →
      List.Chain (stepRel p d ew) u rest → (u :: rest).getLast? = some v →
      Reach p d ew v := by
  intro rest
  induction rest with
  | nil =>
    intro u v hu _ hlast
    have huv : u = v := by simpa using hlast
    exact huv ▸ hu
  | cons w rest ih =>
    intro u v hu hchain hlast
    obtain ⟨⟨wt, hstep⟩, hchain'⟩ := List.chain_cons.1 hchain
    exact ih w v (Reach.step hu hstep) hchain' (by simpa using hlast)

theorem chain_reach {p : LBPuzzle} {d : SmartDictionary} {ew : Nat}
    {path : List Vertex} {v : Vertex}
    (hhead : path.head? = some startVertex) (hchain : List.Chain' (stepRel p d ew) path)
    (hlast : path.getLast? = some v) : Reach p d ew v := by
  cases path with
  | nil => exact absurd hhead (by simp)
  | cons u rest =>
    have hu : u = startVertex := Option.some.inj (by simpa using hhead)
    rw [hu] at hchain hlast
    exact chain_reach_aux rest startVertex v Reach.start hchain hlast

theorem mapM_option_length {α β : Type u} {f : α → Option β} :
    ∀ {l : List α} {l' : List β}, l.mapM f = some l' → l'.length = l.length := by
  intro l
  induction l with
  | nil =>
    intro l' h
    rw [List.mapM_nil] at h
    rw [← Option.some.inj h]
    rfl
  | cons a as ih =>
    intro l' h
    rw [List.mapM_cons] at h
    obtain ⟨b, hb, hrest⟩ := Option.bind_eq_some.1 h
    obtain ⟨bs, hbs, hcons⟩ := Option.bind_eq_some.1 hrest
    rw [← Option.some.inj hcons]
    simp [ih hbs]

/-- C7: a vertex whose recorded word-index path already has exactly
`max_words` entries produces no successors; every vertex the search can
reach carries at most `max_words` recorded words; and consequently any
solution the A* helper returns from a search result has at most
`max_words` words. -/
theorem a_star_max_words (p : LBPuzzle) (d : SmartDictionary) (ew : Nat) (v : Vertex)
    (path : List Vertex) (cost : Nat) (sol : List Word) :
    ((v.words_path.getD []).length = p.max_words → successors p d ew v = none) ∧
    (Reach p d ew v → (v.words_path.getD []).length ≤ p.max_words) ∧
    (IsAstarResult p d ew path cost →
      helper_postprocess p d (some (path, cost)) = some (some sol) →
      sol.length ≤ p.max_words) := by
  refine ⟨?_, fun h => reach_path_le h, ?_⟩
  · intro h
    unfold successors
    rw [if_pos h]
  · rintro ⟨hhead, hchain, ⟨vg, hlast, hgoal⟩, hcost⟩ hpost
    simp only [helper_postprocess] at hpost
    by_cases h0 : n_letters p = 0
    · rw [if_pos h0] at hpost
      exact absurd hpost (by simp)
    · rw [if_neg h0] at hpost
      by_cases hchk : path.length - 1 ≠ cost / n_letters p
      · rw [if_pos hchk] at hpost
        exact absurd hpost (by simp)
      · rw [if_neg hchk] at hpost
        simp only [hlast] at hpost
        cases hvs : vertex_solution d vg with
        | none =>
          simp only [hvs] at hpost
          exact absurd hpost (by simp)
        | some ws =>
          simp only [hvs] at hpost
          have hws : ws = sol := Option.some.inj (Option.some.inj hpost)
          unfold vertex_solution at hvs
          cases hwp : vg.words_path with
          | none => rw [hwp] at hvs; exact absurd hvs (by simp)
          | some idxs =>
            rw [hwp] at hvs
            have hlen := mapM_option_length hvs
            have hreach : Reach p d ew vg := chain_reach hhead hchain hlast
            have hle := reach_path_le hreach
            rw [hwp] at hle
            simp only [Option.getD_some] at hle
            rw [← hws, hlen]
            exact hle

/-- Witness for C7 on the tiny board (`max_words = 1`, edge weight 2):
the one-word goal vertex is reachable, saturated, and the helper
returns its one-word solution. -/
theorem a_star_max_words_witness :
    ((Vertex.mk (some 'a') ((['a', 'c', 'a'] : Word).toFinset) (some [0])).words_path.getD
        []).length = tinyPuzzle.max_words ∧
    successors tinyPuzzle tinyDict 2
      ⟨some 'a', (['a', 'c', 'a'] : Word).toFinset, some [0]⟩ = none ∧
    Reach tinyPuzzle tinyDict 2 ⟨some 'a', (['a', 'c', 'a'] : Word).toFinset, some [0]⟩ ∧
    IsAstarResult tinyPuzzle tinyDict 2
      [startVertex, ⟨some 'a', (['a', 'c', 'a'] : Word).toFinset, some [0]⟩] 2 ∧
    helper_postprocess tinyPuzzle tinyDict
      (some ([startVertex, ⟨some 'a', (['a', 'c', 'a'] : Word).toFinset, some [0]⟩], 2)) =
      some (some [['a', 'c', 'a']]) ∧
    ([['a', 'c', 'a']] : List Word).length ≤ tinyPuzzle.max_words := by
  have hstep : ((⟨some 'a', (['a', 'c', 'a'] : Word).toFinset, some [0]⟩ : Vertex), 2) ∈
      (successors tinyPuzzle tinyDict 2 startVertex).getD [] := by decide
  have hreach : Reach tinyPuzzle tinyDict 2
      ⟨some 'a', (['a', 'c', 'a'] : Word).toFinset, some [0]⟩ :=
    Reach.step Reach.start hstep
  have hres : IsAstarResult tinyPuzzle tinyDict 2
      [startVertex, ⟨some 'a', (['a', 'c', 'a'] : Word).toFinset, some [0]⟩] 2 := by
    refine ⟨rfl, ?_, ⟨_, rfl, by decide⟩, rfl⟩
    exact List.chain'_pair.2 ⟨2, hstep⟩
  have h := a_star_max_words tinyPuzzle tinyDict 2
    ⟨some 'a', (['a', 'c', 'a'] : Word).toFinset, some [0]⟩
    [startVertex, ⟨some 'a', (['a', 'c', 'a'] : Word).toFinset, some [0]⟩] 2
    [['a', 'c', 'a']]
  refine ⟨by decide, h.1 (by decide), hreach, hres, by decide, ?_⟩
  exact h.2.2 hres (by decide)

/-! ### Pre-Dictionary solver soundness -/

theorem get_flat_accepted {p : LBPuzzle} {raw : List Word} {d : SmartDictionary}
    (h : DictInv p raw d) {w : Word} (hm : w ∈ get_flat d) :
    wordAccepted p w = true := by
  obtain ⟨iw, hiw, hsnd⟩ := List.mem_map.1 hm
  rcases iw with ⟨i, w'⟩
  have hw' : w' = w := hsnd
  rw [hw'] at hiw
  exact (dictInv_flat_mem h hiw).1

theorem dget_spec {p : LBPuzzle} {raw : List Word} {d : SmartDictionary}
    (h : DictInv p raw d) {c : Char} {ws : List Word} (hg : dget d c = some ws) :
    ∀ w ∈ ws, w.head? = some c ∧ wordAccepted p w = true := by
  obtain ⟨G, rfl, hG⟩ := h
  unfold dget at hg
  rw [show (mkDict G).map = G from rfl] at hg
  cases hfind : G.find? (fun g => g.1 == c) with
  | none => rw [hfind] at hg; exact absurd hg (by simp)
  | some g0 =>
    rw [hfind] at hg
    simp only [Option.map_some'] at hg
    have hws : g0.2 = ws := Option.some.inj hg
    have hkey : g0.1 = c := beq_iff_eq.1 (by simpa using List.find?_some hfind)
    intro w hw
    rw [← hws] at hw
    have hp := (buildGroups_props (hG g0 (List.mem_of_find?_eq_some hfind))).2 w hw
    exact ⟨by rw [hp.1, hkey], hp.2.1⟩

theorem dictNew_dictInv (p : LBPuzzle) (raw : List Word) (σ : List Char) :
    DictInv p raw (dictNew p raw σ) := by
  refine ⟨reorder σ (buildGroups p raw), rfl, ?_⟩
  intro g hgmem
  obtain ⟨c, _, hfind⟩ := List.mem_filterMap.1 hgmem
  exact List.mem_of_find?_eq_some hfind

theorem drop_one_getLast? {w : Word} (h : 2 ≤ w.length) :
    (w.drop 1).getLast? = w.getLast? ∧ w.drop 1 ≠ [] := by
  cases w with
  | nil => simp at h
  | cons a t =>
    have ht : t ≠ [] := by
      intro hcontra
      rw [hcontra] at h
      simp at h
    have htl : t.getLast? = some (t.getLast ht) := List.getLast?_eq_getLast t ht
    constructor
    · show t.getLast? = (a :: t).getLast?
      have : (a :: t) = [a] ++ t := rfl
      rw [this, List.getLast?_append, htl]
      rfl
    · simpa using ht

theorem chainWords_go :
    ∀ (rest : List Word) (seq : Word), seq ≠ [] → (∀ w ∈ rest, 2 ≤ w.length) →
      List.Chain (fun w1 w2 => w2.head? = w1.getLast?) seq rest →
      chainWords seq rest = .ok (seq ++ (rest.map (fun w => w.drop 1)).flatten) := by
  intro rest
  induction rest with
  | nil =>
    intro seq _ _ _
    simp [chainWords]
  | cons w ws ih =>
    intro seq hne hlen hchain
    obtain ⟨hlink, hchain'⟩ := List.chain_cons.1 hchain
    unfold chainWords
    rw [if_neg (by simp [hlink])]
    have hw2 : 2 ≤ w.length := hlen w (List.mem_cons_self _ _)
    obtain ⟨hglast, hdne⟩ := drop_one_getLast? hw2
    have hlast' : (seq ++ w.drop 1).getLast? = w.getLast? := by
      rw [List.getLast?_append]
      cases hdl : (w.drop 1).getLast? with
      | none =>
        have := List.getLast?_eq_getLast _ hdne
        rw [this] at hdl
        exact absurd hdl (by simp)
      | some y =>
        rw [hdl] at hglast
        rw [show (some y).or seq.getLast? = some y from rfl]
        exact hglast
    have hchain2 : List.Chain (fun w1 w2 => w2.head? = w1.getLast?) (seq ++ w.drop 1) ws := by
      cases ws with
      | nil => exact List.Chain.nil
      | cons w2 ws2 =>
        obtain ⟨hlink2, hchain3⟩ := List.chain_cons.1 hchain'
        exact List.chain_cons.2 ⟨by rw [hlink2, ← hlast'], hchain3⟩
    have := ih (seq ++ w.drop 1) (by simp [hne]) (fun x hx => hlen x (List.mem_cons_of_mem _ hx)) hchain2
    rw [this]
    simp

theorem validate_coverage_nil_false {p : LBPuzzle} (hWf : p.Wf)
    (hn : 1 ≤ n_letters p) : validate_coverage p [] = false := by
  have hSL : 0 < p.S ∧ 0 < p.L := by
    rw [n_letters] at hn
    constructor
    · rcases Nat.eq_zero_or_pos p.S with h | h
      · rw [h, Nat.zero_mul] at hn; omega
      · exact h
    · rcases Nat.eq_zero_or_pos p.L with h | h
      · rw [h, Nat.mul_zero] at hn; omega
      · exact h
  obtain ⟨row, rest, hrows⟩ : ∃ row rest, p.sides = row :: rest := by
    cases hs : p.sides with
    | nil =>
      have := hWf.1
      rw [hs] at this
      exact absurd this.symm (by simpa using Nat.pos_iff_ne_zero.1 hSL.1)
    | cons row rest => exact ⟨row, rest, rfl⟩
  obtain ⟨c, rowt, hrow⟩ : ∃ c rowt, row = c :: rowt := by
    cases hr : row with
    | nil =>
      have hlen := hWf.2 row (by rw [hrows]; exact List.mem_cons_self _ _)
      rw [hr] at hlen
      exact absurd hlen.symm (by simpa using Nat.pos_iff_ne_zero.1 hSL.2)
    | cons c rowt => exact ⟨c, rowt, rfl⟩
  show (p.sides.map (fun side => side.map (fun _ => false))).all
    (fun side => side.all id) = false
  rw [hrows, hrow]
  simp

theorem seqOk_validate {p : LBPuzzle} (hWf : p.Wf) (hn : 1 ≤ n_letters p)
    {ws : List Word} (hs : SeqOk p ws) (hcov : validate_coverage p ws = true) :
    validate_solution p ws = some (.ok ()) := by
  cases ws with
  | nil =>
    rw [validate_coverage_nil_false hWf hn] at hcov
    exact absurd hcov (by simp)
  | cons first rest =>
    have hacc := hs.1
    have hlen3 : ∀ w ∈ first :: rest, 3 ≤ w.length := by
      intro w hw
      have hx := hacc w hw
      unfold wordAccepted at hx
      rw [Bool.and_eq_true] at hx
      simpa using hx.1
    have hfind : (first :: rest).find? (fun w => decide (w.length < 3)) = none := by
      apply List.find?_eq_none.2
      intro w hw
      simp [Nat.not_lt.2 (hlen3 w hw)]
    have hchain : List.Chain (fun w1 w2 => w2.head? = w1.getLast?) first rest := hs.2
    have hfirstne : first ≠ [] := by
      intro hcontra
      have := hlen3 first (List.mem_cons_self _ _)
      rw [hcontra] at this
      simp at this
    have hcw := chainWords_go rest first hfirstne
      (fun w hw => le_trans (by omega) (hlen3 w (List.mem_cons_of_mem _ hw)))
      hchain
    unfold validate_solution
    simp only [hfind, hcw]
    unfold validate_coverage at hcov
    rw [show concatDrop (first :: rest) =
      first ++ (rest.map (fun w => w.drop 1)).flatten from rfl] at hcov
    cases hwalk : walkSeq p (first ++ (rest.map (fun w => w.drop 1)).flatten) with
    | error e =>
      simp only [hwalk] at hcov
      exact absurd hcov (by simp)
    | ok visited =>
      simp only [hwalk] at hcov
      simp only [hwalk]
      rw [if_pos hcov]

theorem solve_step_sound {p : LBPuzzle} {raw : List Word} {d : SmartDictionary}
    (hWf : p.Wf) (hn : 1 ≤ n_letters p) (hInv : DictInv p raw d) :
    ∀ (fuel : Nat) (words : List Word) (st : Option (List Word)) (sol : List Word),
      SeqOk p words →
      (∀ cands, st = some cands → ∀ w ∈ cands, wordAccepted p w = true ∧
        (words = [] ∨ ∃ lw, words.getLast? = some lw ∧ w.head? = lw.getLast?)) →
      solve_step p d fuel words st = some (some sol) →
      validate_solution p sol = some (.ok ()) := by
  intro fuel
  induction fuel with
  | zero =>
    intro words st sol _ _ h
    exact absurd h (by simp [solve_step])
  | succ f ih =>
    intro words st sol hseq hcands h
    cases st with
    | none =>
      unfold solve_step at h
      by_cases hmax : p.max_words < words.length
      · rw [if_pos hmax] at h
        exact absurd h (by simp)
      · rw [if_neg hmax] at h
        by_cases hcov : validate_coverage p words = true
        · rw [if_pos hcov] at h
          have hws : words = sol := Option.some.inj (Option.some.inj h)
          rw [← hws]
          exact seqOk_validate hWf hn hseq hcov
        · rw [if_neg hcov] at h
          refine ih words (some (next_candidates d words)) sol hseq ?_ h
          intro cands hc w hw
          rw [← Option.some.inj hc] at hw
          unfold next_candidates at hw
          cases hlast : words.getLast? with
          | none =>
            simp only [hlast] at hw
            exact ⟨get_flat_accepted hInv hw, Or.inl (List.getLast?_eq_none_iff.1 hlast)⟩
          | some lw =>
            simp only [hlast] at hw
            cases hlw : lw.getLast? with
            | none => simp only [hlw] at hw; exact absurd hw (by simp)
            | some c =>
              simp only [hlw] at hw
              cases hget : dget d c with
              | none => simp only [hget] at hw; exact absurd hw (by simp)
              | some ws0 =>
                simp only [hget] at hw
                have hsp := dget_spec hInv hget w hw
                exact ⟨hsp.2, Or.inr ⟨lw, rfl, by rw [hsp.1, hlw]⟩⟩
                
    | some cands =>
      cases cands with
      | nil => exact absurd h (by simp [solve_step])
      | cons w ws =>
        unfold solve_step at h
        by_cases hcont : (words.contains w) = true
        · rw [if_pos hcont] at h
          refine ih words (some ws) sol hseq ?_ h
          intro cds hc w' hw'
          rw [← Option.some.inj hc] at hw'
          exact hcands (w :: ws) rfl w' (List.mem_cons_of_mem _ hw')
        · rw [if_neg hcont] at h
          cases hrec : solve_step p d f (words ++ [w]) none with
          | none =>
            simp only [hrec] at h
            exact absurd h (by simp)
          | some r =>
            cases r with
            | some sol' =>
              simp only [hrec] at h
              have hsol : sol' = sol := Option.some.inj (Option.some.inj h)
              have hcw := hcands (w :: ws) rfl w (List.mem_cons_self _ _)
              have hseq' : SeqOk p (words ++ [w]) := by
                constructor
                · intro x hx
                  rcases List.mem_append.1 hx with hx' | hx'
                  · exact hseq.1 x hx'
                  · rw [List.mem_singleton.1 hx']
                    exact hcw.1
                · refine List.Chain'.append hseq.2 (List.chain'_singleton w) ?_
                  intro x hx y hy
                  have hyw : y = w := by have := hy; simpa using this.symm
                  rcases hcw.2 with hnil | ⟨lw, hlw, hhead⟩
                  · rw [hnil] at hx
                    simp at hx
                  · rw [hlw] at hx
                    have hxlw : x = lw := by have := hx; simpa using this.symm
                    rw [hyw, hxlw]
                    exact hhead
              exact hsol ▸ ih (words ++ [w]) none sol' hseq'
                (fun c hc => absurd hc (by simp)) hrec
            | none =>
              simp only [hrec] at h
              refine ih words (some ws) sol hseq ?_ h
              intro cds hc w' hw'
              rw [← Option.some.inj hc] at hw'
              exact hcands (w :: ws) rfl w' (List.mem_cons_of_mem _ hw')

/-! ### Distinct-board walk lemmas -/

theorem flatten_get_decomp' {L : Nat} :
    ∀ (rows : List (List Char)) (i : Nat) (c : Char),
      (∀ r ∈ rows, r.length = L) → (rows.flatten).get? i = some c →
      ∃ row, rows.get? (i / L) = some row ∧ row.get? (i % L) = some c := by
  intro rows
  induction rows with
  | nil => intro i c _ hget; exact absurd hget (by simp)
  | cons r rest ih =>
    intro i c hlen hget
    have hL : r.length = L := hlen r (List.mem_cons_self _ _)
    rw [List.flatten_cons] at hget
    by_cases hi : i < L
    · rw [List.get?_append (by rw [hL]; exact hi)] at hget
      rw [Nat.div_eq_of_lt hi, Nat.mod_eq_of_lt hi]
      exact ⟨r, rfl, hget⟩
    · push_neg at hi
      have hLpos : 0 < L := by
        rcases Nat.eq_zero_or_pos L with h0 | h
        · exfalso
          have hflat : (r :: rest).flatten.length = 0 := by
            rw [List.length_flatten]
            have : ∀ x ∈ (r :: rest).map List.length, x = 0 := by
              intro x hx
              obtain ⟨rr, hrr, hrx⟩ := List.mem_map.1 hx
              rw [← hrx, hlen rr hrr, h0]
            exact List.sum_eq_zero this
          rw [List.flatten_cons] at hflat
          have hmem := List.get?_mem hget
          rw [List.length_eq_zero] at hflat
          rw [hflat] at hmem
          simp at hmem
        · exact h
      rw [List.get?_append_right (by omega)] at hget
      rw [hL] at hget
      obtain ⟨row, h1, h2⟩ := ih (i - L) c (fun x hx => hlen x (List.mem_cons_of_mem _ hx)) hget
      refine ⟨row, ?_, ?_⟩
      · rw [Nat.div_eq_sub_div hLpos hi]
        exact h1
      · rw [Nat.mod_eq_sub_mod hi]
        exact h2

theorem flatten_get_decomp {p : LBPuzzle} (hWf : p.Wf) {i : Nat} {c : Char}
    (h : (all_letters p).get? i = some c) :
    ∃ row, p.sides.get? (i / p.L) = some row ∧ row.get? (i % p.L) = some c :=
  flatten_get_decomp' p.sides i c (fun r hr => hWf.2 r hr) h

theorem nodup_unique_side {p : LBPuzzle} (hnd : (all_letters p).Nodup) {c : Char}
    (hc : c ∈ all_letters p) :
    ∃ s row, p.sides.get? s = some row ∧ c ∈ row ∧
      ∀ j r, p.sides.get? j = some r → c ∈ r → j = s := by
  obtain ⟨row, hrowmem, hcr⟩ := List.mem_flatten.1 hc
  obtain ⟨s, hs⟩ := List.mem_iff_get?.1 hrowmem
  refine ⟨s, row, hs, hcr, ?_⟩
  intro j r hj hcr'
  by_contra hne
  have hpw : List.Pairwise List.Disjoint p.sides := (List.nodup_flatten.1 hnd).2
  have hpwg := List.pairwise_iff_get.1 hpw
  obtain ⟨hslt, hsget⟩ := List.get?_eq_some.1 hs
  obtain ⟨hjlt, hjget⟩ := List.get?_eq_some.1 hj
  rcases Nat.lt_or_ge j s with hlt | hge
  · have hdis := hpwg ⟨j, hjlt⟩ ⟨s, hslt⟩ hlt
    rw [hjget, hsget] at hdis
    exact hdis hcr' hcr
  · have hlt : s < j := Nat.lt_of_le_of_ne hge (fun hcontra => hne hcontra.symm)
    have hdis := hpwg ⟨s, hslt⟩ ⟨j, hjlt⟩ hlt
    rw [hjget, hsget] at hdis
    exact hdis hcr hcr'

theorem nodup_findIdx?_go {α : Type u} [BEq α] [LawfulBEq α] :
    ∀ (l : List α) (start off : Nat) (x : α), l.Nodup → l.get? off = some x →
      l.findIdx? (fun y => x == y) start = some (start + off) := by
  intro l
  induction l with
  | nil => intro start off x _ hget; exact absurd hget (by simp)
  | cons a t ih =>
    intro start off x hnd hget
    obtain ⟨hnotin, hnd'⟩ := List.nodup_cons.1 hnd
    cases off with
    | zero =>
      have hax : a = x := by simpa using hget
      rw [List.findIdx?_cons, if_pos (by rw [hax]; simp)]
      rfl
    | succ n =>
      have hget' : t.get? n = some x := by simpa using hget
      have hxt : x ∈ t := List.get?_mem hget'
      have hax : (x == a) = false := by
        rw [beq_eq_false_iff_ne]
        intro hcontra
        rw [← hcontra] at hnotin
        exact hnotin hxt
      rw [List.findIdx?_cons, if_neg (by rw [hax]; simp)]
      have := ih (start + 1) n x hnd' hget'
      rw [this]
      congr 1
      omega

theorem nodup_findIdx? {α : Type u} [BEq α] [LawfulBEq α] {l : List α} {off : Nat} {x : α}
    (hnd : l.Nodup) (hget : l.get? off = some x) :
    l.findIdx? (fun y => x == y) = some off := by
  have := nodup_findIdx?_go l 0 off x hnd hget
  simpa using this

/-! ### Visited-grid lemmas -/

theorem setVisited_length (v : List (List Bool)) (i j : Nat) :
    (setVisited v i j).length = v.length := by
  unfold setVisited
  exact List.length_set _ _ _

theorem setVisited_row_length (v : List (List Bool)) (i j k : Nat) :
    (((setVisited v i j).get? k).getD []).length = ((v.get? k).getD []).length := by
  unfold setVisited
  by_cases hk : i = k
  · subst hk
    rw [List.get?_set_eq]
    cases hv : v.get? i with
    | none => simp [hv]
    | some row => simp [hv]
  · rw [List.get?_set_ne _ _ hk]

theorem get?_set_self' {α : Type u} (l : List α) (n : Nat) (a : α) {x : α}
    (h : l.get? n = some x) : (l.set n a).get? n = some a := by
  rw [List.get?_set_eq, h]
  rfl

theorem vget_setVisited_self {v : List (List Bool)} {i j : Nat}
    (hi : i < v.length) (hj : j < ((v.get? i).getD []).length) :
    vget (setVisited v i j) i j = true := by
  unfold vget setVisited
  obtain ⟨row, hrow⟩ : ∃ row, v.get? i = some row := by
    cases hv : v.get? i with
    | none => exact absurd (List.get?_eq_none.1 hv) (by omega)
    | some row => exact ⟨row, rfl⟩
  rw [get?_set_self' v i _ hrow]
  simp only [Option.getD_some, hrow]
  rw [hrow] at hj
  simp only [Option.getD_some] at hj
  obtain ⟨b, hb⟩ : ∃ b, row.get? j = some b := by
    cases hbv : row.get? j with
    | none => exact absurd (List.get?_eq_none.1 hbv) (by omega)
    | some b => exact ⟨b, rfl⟩
  rw [get?_set_self' row j true hb]
  rfl

theorem vget_setVisited_mono {v : List (List Bool)} {i j s off : Nat}
    (h : vget v s off = true) : vget (setVisited v i j) s off = true := by
  unfold vget setVisited at *
  by_cases hs : i = s
  · subst hs
    cases hv : v.get? i with
    | none => rw [hv] at h; simp at h
    | some row =>
      rw [hv] at h
      simp only [Option.getD_some] at h
      rw [get?_set_self' v i _ hv]
      simp only [Option.getD_some, hv]
      by_cases hoff : j = off
      · subst hoff
        cases hb : row.get? j with
        | none => rw [hb] at h; simp at h
        | some b =>
          rw [get?_set_self' row j true hb]
          rfl
      · rw [List.get?_set_ne _ _ hoff]
        exact h
  · rw [List.get?_set_ne _ _ hs]
    exact h

theorem findIdx?_get_go {α : Type u} :
    ∀ (l : List α) (q : α → Bool) (start i : Nat),
      List.findIdx? q l start = some i →
      start ≤ i ∧ ∃ y, l.get? (i - start) = some y ∧ q y = true := by
  intro l
  induction l with
  | nil => intro q start i h; exact absurd h (by simp)
  | cons a t ih =>
    intro q start i h
    rw [List.findIdx?_cons] at h
    by_cases ha : q a = true
    · rw [if_pos ha] at h
      have hi : start = i := Option.some.inj h
      subst hi
      refine ⟨le_refl _, a, ?_, ha⟩
      rw [Nat.sub_self]
      rfl
    · rw [if_neg ha] at h
      obtain ⟨hle, y, hget, hq⟩ := ih q (start + 1) i h
      refine ⟨by omega, y, ?_, hq⟩
      have hsub : i - start = (i - (start + 1)) + 1 := by omega
      rw [hsub]
      simpa using hget

theorem findIdx?_get {α : Type u} {l : List α} {q : α → Bool} {i : Nat}
    (h : List.findIdx? q l = some i) : ∃ y, l.get? i = some y ∧ q y = true := by
  have hgo := findIdx?_get_go l q 0 i h
  obtain ⟨_, y, hget, hq⟩ := hgo
  exact ⟨y, by simpa using hget, hq⟩

theorem findLetter_go {c : Char} {prev : Int} :
    ∀ (rows : List (List Char)) (n s off : Nat) (row : List Char),
      (∀ j r, rows.get? j = some r → c ∈ r → n + j = s) →
      rows.get? (s - n) = some row → n ≤ s →
      row.findIdx? (fun l => c == l) = some off →
      (s : Int) ≠ prev →
      findLetter prev c (List.enumFrom n rows) = some (s, off) := by
  intro rows
  induction rows with
  | nil =>
    intro n s off row _ hget _ _ _
    exact absurd hget (by simp)
  | cons r0 rest ih =>
    intro n s off row huniq hget hns hfidx hsprev
    rw [show List.enumFrom n (r0 :: rest) = (n, r0) :: List.enumFrom (n + 1) rest from rfl]
    unfold findLetter
    by_cases hn : (n : Int) = prev
    · rw [if_pos hn]
      have hnss : n ≠ s := by
        intro hcontra
        rw [hcontra] at hn
        exact hsprev hn
      have hlt : n < s := lt_of_le_of_ne hns hnss
      apply ih (n + 1) s off row
      · intro j rr hj hcr
        have := huniq (j + 1) rr (by simpa using hj) hcr
        omega
      · have hsub : s - n = (s - (n + 1)) + 1 := by omega
        rw [hsub] at hget
        simpa using hget
      · omega
      · exact hfidx
      · exact hsprev
    · rw [if_neg hn]
      by_cases hns' : n = s
      · subst hns'
        have hrow : r0 = row := by
          have hzero : n - n = 0 := by omega
          rw [hzero] at hget
          simpa using hget
        rw [hrow]
        simp only [hfidx]
      · have hnotin : ∀ l ∈ r0, (c == l) = false := by
          intro l hl
          rw [beq_eq_false_iff_ne]
          intro hcl
          have := huniq 0 r0 (by simp) (by rw [hcl]; exact hl)
          omega
        have hnone : r0.findIdx? (fun l => c == l) = none :=
          List.findIdx?_eq_none_iff.2 hnotin
        simp only [hnone]
        have hlt : n < s := lt_of_le_of_ne hns hns'
        apply ih (n + 1) s off row
        · intro j rr hj hcr
          have := huniq (j + 1) rr (by simpa using hj) hcr
          omega
        · have hsub : s - n = (s - (n + 1)) + 1 := by omega
          rw [hsub] at hget
          simpa using hget
        · omega
        · exact hfidx
        · exact hsprev

theorem walkGo_sound {p : LBPuzzle} (hWf : p.Wf) (hnd : (all_letters p).Nodup) :
    ∀ (seq : Word) (prev : Int) (visited : List (List Bool)),
      (∀ c ∈ seq, c ∈ all_letters p) →
      List.Chain' (chainStepOk p) seq →
      (∀ c0, seq.head? = some c0 → ∀ s row, p.sides.get? s = some row → c0 ∈ row →
        (s : Int) ≠ prev) →
      visited.length = p.sides.length →
      (∀ k, ((visited.get? k).getD []).length = ((p.sides.get? k).getD []).length) →
      ∃ visited', walkGo p seq prev visited = .ok visited' ∧
        visited'.length = visited.length ∧
        (∀ k, ((visited'.get? k).getD []).length = ((visited.get? k).getD []).length) ∧
        (∀ s off, vget visited s off = true → vget visited' s off = true) ∧
        (∀ c ∈ seq, ∀ s row off, p.sides.get? s = some row →
          row.findIdx? (fun l => c == l) = some off → vget visited' s off = true) := by
  intro seq
  induction seq with
  | nil =>
    intro prev visited _ _ _ _ _
    exact ⟨visited, rfl, rfl, fun k => rfl, fun s off h => h, by simp⟩
  | cons c cs ih =>
    intro prev visited hall hchain hhead hvlen hvrow
    have hc : c ∈ all_letters p := hall c (List.mem_cons_self _ _)
    obtain ⟨sc, row, hrow, hcrow, huniq⟩ := nodup_unique_side hnd hc
    have hrownd : row.Nodup :=
      (List.nodup_flatten.1 hnd).1 row (List.get?_mem hrow)
    obtain ⟨off, hoff⟩ := List.mem_iff_get?.1 hcrow
    have hfidx : row.findIdx? (fun l => c == l) = some off := nodup_findIdx? hrownd hoff
    have hscprev : (sc : Int) ≠ prev := hhead c rfl sc row hrow hcrow
    have hfl : findLetter prev c p.sides.enum = some (sc, off) := by
      have := findLetter_go p.sides 0 sc off row
        (fun j r hj hcr => by simpa using huniq j r hj hcr)
        (by simpa using hrow) (Nat.zero_le _) hfidx hscprev
      simpa [List.enum] using this
    -- bounds for the mark
    have hsclt : sc < visited.length := by
      rw [hvlen]
      exact (List.get?_eq_some.1 hrow).1
    have hofflt : off < ((visited.get? sc).getD []).length := by
      rw [hvrow sc, hrow]
      simp only [Option.getD_some]
      exact (List.get?_eq_some.1 hoff).1
    -- the step
    have hstep : walkGo p (c :: cs) prev visited =
        walkGo p cs (sc : Int) (setVisited visited sc off) := by
      conv_lhs => rw [walkGo]
      simp only [hfl]
    -- chain tail facts
    have hchain' : List.Chain' (chainStepOk p) cs := hchain.tail
    have hheadtail : ∀ c1, cs.head? = some c1 → ∀ s r, p.sides.get? s = some r →
        c1 ∈ r → (s : Int) ≠ (sc : Int) := by
      intro c1 hc1 s r hs hcr
      have hrel : chainStepOk p c c1 := by
        have := List.chain'_cons'.1 hchain
        exact this.1 c1 hc1
      obtain ⟨i, hIdx, hval⟩ := hrel
      -- the index i points at c, whose side is sc
      have hilt : i < (all_letters p).length :=
        (List.findIdx?_eq_some_iff_findIdx_eq.1 hIdx).1
      have hgetall : (all_letters p).get? i = some c := by
        obtain ⟨y, hget, hq⟩ := findIdx?_get hIdx
        rw [beq_iff_eq.1 hq] at hget
        exact hget
      obtain ⟨rowi, hrowi, hrcini⟩ := flatten_get_decomp hWf hgetall
      have hsci : i / p.L = sc := huniq (i / p.L) rowi hrowi (List.get?_mem hrcini)
      -- c1 lies on a side other than i / L
      unfold valid_letters at hval
      obtain ⟨sz, hsz, hc1sz⟩ := List.mem_flatMap.1 hval
      have hszf := List.mem_filter.1 hsz
      have hszmem : p.sides.get? sz.1 = some sz.2 := mem_enum_get? hszf.1
      have hside : ¬ is_idx_on_side p (i : Int) (sz.1 : Int) = true := by simpa using hszf.2
      -- c1's unique side
      obtain ⟨s1, row1, hrow1, hc1row1, huniq1⟩ := nodup_unique_side hnd
        (List.mem_flatten.2 ⟨sz.2, List.get?_mem hszmem, hc1sz⟩)
      have hs1a : s1 = sz.1 := (huniq1 sz.1 sz.2 hszmem hc1sz).symm
      have hs1b : s = s1 := huniq1 s r hs hcr
      -- is_idx_on_side at c's index resolves to side sc
      have hits : idx_to_side p (i : Int) = some ((i / p.L : Nat) : Int) := by
        unfold idx_to_side
        have hcond : 0 ≤ (i : Int) ∧ (i : Int) < (n_letters p : Int) := by
          refine ⟨by positivity, ?_⟩
          have hin : i < n_letters p := by
            rw [← all_letters_length hWf]
            exact hilt
          exact_mod_cast hin
        rw [if_pos hcond, Int.ofNat_ediv]
      intro hcontra
      apply hside
      unfold is_idx_on_side
      rw [hits]
      simp only [Option.getD_some]
      rw [show ((i / p.L : Nat) : Int) = ((sc : Nat) : Int) from
        congrArg (fun n : Nat => (n : Int)) hsci]
      rw [hs1b, hs1a] at hcontra
      rw [← hcontra]
      simp
    obtain ⟨visited', hwalk, hlen', hrow', hmono, hmarks⟩ :=
      ih (sc : Int) (setVisited visited sc off)
        (fun x hx => hall x (List.mem_cons_of_mem _ hx)) hchain' hheadtail
        (by rw [setVisited_length, hvlen])
        (fun k => by rw [setVisited_row_length, hvrow k])
    refine ⟨visited', by rw [hstep, hwalk], by rw [hlen', setVisited_length],
      fun k => by rw [hrow' k, setVisited_row_length], ?_, ?_⟩
    · intro s off' h
      exact hmono s off' (vget_setVisited_mono h)
    · intro x hx s r off' hs hfid
      rcases List.mem_cons.1 hx with rfl | hx'
      · -- x = c : the mark we just made
        have hcr : x ∈ r := by
          obtain ⟨y, hget, hq⟩ := findIdx?_get hfid
          rw [← beq_iff_eq.1 hq] at hget
          exact List.get?_mem hget
        have hseq : s = sc := huniq s r hs hcr
        subst hseq
        have hreq : r = row := by
          rw [hs] at hrow
          exact Option.some.inj hrow
        subst hreq
        have hoffeq : off' = off := by
          rw [hfid] at hfidx
          exact Option.some.inj hfidx
        subst hoffeq
        exact hmono s off' (vget_setVisited_self hsclt hofflt)
      · exact hmarks x hx' s r off' hs hfid

/-! ### A* reachability carries the vertex invariant -/

theorem mapM_append_singleton {α β : Type u} {f : α → Option β} :
    ∀ {l : List α} {out : List β} {a : α} {b : β},
      l.mapM f = some out → f a = some b → (l ++ [a]).mapM f = some (out ++ [b]) := by
  intro l
  induction l with
  | nil =>
    intro out a b hl hf
    rw [List.mapM_nil] at hl
    rw [← Option.some.inj hl]
    rw [List.nil_append, List.mapM_cons, List.mapM_nil]
    simp only [Option.pure_def, Option.bind_eq_bind, Option.some_bind, hf,
      List.nil_append]
  | cons x xs ih =>
    intro out a b hl hf
    rw [List.mapM_cons] at hl
    obtain ⟨y, hy, hrest⟩ := Option.bind_eq_some.1 hl
    obtain ⟨ys, hys, hcons⟩ := Option.bind_eq_some.1 hrest
    have hys' := ih hys hf
    show (x :: (xs ++ [a])).mapM f = some (out ++ [b])
    rw [List.mapM_cons]
    simp only [hy, hys', Option.pure_def, Option.bind_eq_bind, Option.some_bind]
    rw [← Option.some.inj hcons]
    rfl

theorem flat_resolve {p : LBPuzzle} {raw : List Word} {d : SmartDictionary}
    (h : DictInv p raw d) {i : Nat} {w : Word} (hm : (i, w) ∈ d.flat) :
    (get_word_by_idx d i).bind id = some w := by
  have hget := (dictInv_flat_mem h hm).2.2
  unfold get_word_by_idx
  rw [hget]
  rfl

theorem accepted_facts {p : LBPuzzle} (hWf : p.Wf) {w : Word}
    (h : wordAccepted p w = true) :
    3 ≤ w.length ∧ (∀ c ∈ w, c ∈ all_letters p) ∧ wordChainOk p w := by
  unfold wordAccepted at h
  rw [Bool.and_eq_true] at h
  have hck := checkWordFrom_props hWf w (-1) h.2
  exact ⟨by simpa using h.1, hck.1, hck.2.1⟩

theorem accepted_length {p : LBPuzzle} {w : Word}
    (h : wordAccepted p w = true) : 3 ≤ w.length := by
  unfold wordAccepted at h
  rw [Bool.and_eq_true] at h
  simpa using h.1

theorem reach_vertexOk {p : LBPuzzle} {raw : List Word} {d : SmartDictionary}
    (hInv : DictInv p raw d) {ew : Nat} {v : Vertex}
    (h : Reach p d ew v) : VertexOk p d v := by
  induction h with
  | start =>
    exact ⟨[], rfl, by simp, List.chain'_nil, rfl, rfl⟩
  | @step u v' wt hu hmem ih =>
    obtain ⟨ws, hmapM, hacc, hchain, hletter, hcov⟩ := ih
    obtain ⟨-, iw, hiwmem, hv', -⟩ := successors_mem_elim hmem
    have hflat : iw ∈ d.flat ∧ (u.letter = none → ws = []) ∧
        (∀ c, u.letter = some c → iw.2.head? = some c) := by
      cases hl : u.letter with
      | none =>
        simp only [hl] at hiwmem
        refine ⟨hiwmem, fun _ => ?_, fun c hc => absurd hc (by simp)⟩
        rw [hl] at hletter
        cases hws : ws.getLast? with
        | none => exact List.getLast?_eq_none_iff.1 hws
        | some lw =>
          rw [hws] at hletter
          simp only [Option.some_bind] at hletter
          cases hlw : lw.getLast? with
          | none =>
            have hlnil : lw = [] := List.getLast?_eq_none_iff.1 hlw
            have hlacc := accepted_length (hacc lw (List.mem_of_getLast?_eq_some hws))
            rw [hlnil] at hlacc
            exact absurd hlacc (by simp)
          | some c0 =>
            rw [hlw] at hletter
            exact absurd hletter (by simp)
      | some c =>
        simp only [hl] at hiwmem
        cases hgi : get_indexed d c with
        | none => rw [hgi] at hiwmem; exact absurd hiwmem (by simp)
        | some l =>
          rw [hgi] at hiwmem
          simp only [Option.getD_some] at hiwmem
          have hspec := get_indexed_spec hInv hgi iw hiwmem
          refine ⟨hspec.1, fun hc => absurd hc (by simp), ?_⟩
          intro c' hc'
          rw [hspec.2, Option.some.inj hc']
    have hres : (get_word_by_idx d iw.1).bind id = some iw.2 :=
      flat_resolve hInv hflat.1
    have hacc2 : wordAccepted p iw.2 = true := (dictInv_flat_mem hInv hflat.1).1
    subst hv'
    refine ⟨ws ++ [iw.2], ?_, ?_, ?_, ?_, ?_⟩
    · show ((some ((u.words_path.getD []) ++ [iw.1])).getD []).mapM
        (fun i => (get_word_by_idx d i).bind id) = some (ws ++ [iw.2])
      simp only [Option.getD_some]
      exact mapM_append_singleton hmapM hres
    · intro w hw
      rcases List.mem_append.1 hw with hw' | hw'
      · exact hacc w hw'
      · rw [List.mem_singleton.1 hw']
        exact hacc2
    · refine List.chain'_append.2 ⟨hchain, List.chain'_singleton iw.2, ?_⟩
      intro x hx y hy
      have hy2 : y = iw.2 := by have := hy; simpa using this.symm
      cases hws : ws.getLast? with
      | none =>
        rw [hws] at hx
        exact absurd hx (by simp)
      | some lw =>
        rw [hws] at hx
        have hxlw : x = lw := by have := hx; simpa using this.symm
        have hlw : ∃ c0, lw.getLast? = some c0 := by
          cases hl0 : lw.getLast? with
          | none =>
            have hlnil : lw = [] := List.getLast?_eq_none_iff.1 hl0
            have hlacc := accepted_length (hacc lw (List.mem_of_getLast?_eq_some hws))
            rw [hlnil] at hlacc
            exact absurd hlacc (by simp)
          | some c0 => exact ⟨c0, rfl⟩
        obtain ⟨c0, hc0⟩ := hlw
        have hul : u.letter = some c0 := by
          rw [hletter, hws]
          simp only [Option.some_bind]
          exact hc0
        rw [hy2, hxlw, hflat.2.2 c0 hul, hc0]
    · show iw.2.getLast? = (ws ++ [iw.2]).getLast?.bind List.getLast?
      rw [List.getLast?_concat]
      rfl
    · show u.coverage ∪ iw.2.toFinset = ((ws ++ [iw.2]).flatten).toFinset
      rw [hcov, List.flatten_append, List.toFinset_append]
      congr 1
      simp

/-! ### Coverage at a goal vertex -/

theorem goal_cover {p : LBPuzzle} (hWf : p.Wf) {s : Finset Char}
    (hsub : s ⊆ (all_letters p).toFinset) (hcard : n_letters p ≤ s.card) :
    (all_letters p).Nodup ∧ s = (all_letters p).toFinset := by
  have h1 : s.card ≤ (all_letters p).toFinset.card := Finset.card_le_card hsub
  have h2 : (all_letters p).toFinset.card = (all_letters p).dedup.length :=
    List.card_toFinset _
  have h3 : (all_letters p).dedup.length ≤ (all_letters p).length :=
    (List.dedup_sublist _).length_le
  have h4 : (all_letters p).length = n_letters p := all_letters_length hWf
  have hdl : (all_letters p).dedup.length = (all_letters p).length := by omega
  have hnd : (all_letters p).Nodup :=
    List.dedup_eq_self.1 ((List.dedup_sublist _).eq_of_length hdl)
  exact ⟨hnd, Finset.eq_of_subset_of_card_le hsub (by omega)⟩

/-! ### The merged letter run of a head-to-tail word sequence -/

theorem concatDrop_chain_go {p : LBPuzzle} :
    ∀ (rest : List Word) (seq : Word),
      List.Chain' (chainStepOk p) seq →
      (∀ w ∈ rest, wordChainOk p w ∧ 2 ≤ w.length) →
      List.Chain (fun w1 w2 => w2.head? = w1.getLast?) seq rest →
      List.Chain' (chainStepOk p) (seq ++ (rest.map (fun w => w.drop 1)).flatten) := by
  intro rest
  induction rest with
  | nil =>
    intro seq hseq _ _
    simpa using hseq
  | cons w ws ih =>
    intro seq hseq hrest hchain
    obtain ⟨hlink, hchain'⟩ := List.chain_cons.1 hchain
    obtain ⟨hw, hw2⟩ := hrest w (List.mem_cons_self _ _)
    obtain ⟨c, t, rfl⟩ : ∃ c t, w = c :: t := by
      cases w with
      | nil => exact absurd hw2 (by simp)
      | cons c t => exact ⟨c, t, rfl⟩
    have hseq' : List.Chain' (chainStepOk p) (seq ++ t) := by
      refine List.chain'_append.2 ⟨hseq, (List.chain'_cons'.1 hw).2, ?_⟩
      intro x hx y hy
      have hxc : x = c := by
        rw [← hlink] at hx
        have := hx
        simpa using this.symm
      rw [hxc]
      exact (List.chain'_cons'.1 hw).1 y hy
    obtain ⟨hglast, hdne⟩ := drop_one_getLast? hw2
    have hlast' : (seq ++ (c :: t).drop 1).getLast? = (c :: t).getLast? := by
      rw [List.getLast?_append]
      cases hdl : ((c :: t).drop 1).getLast? with
      | none =>
        have := List.getLast?_eq_getLast _ hdne
        rw [this] at hdl
        exact absurd hdl (by simp)
      | some y =>
        rw [hdl] at hglast
        rw [show (some y).or seq.getLast? = some y from rfl]
        exact hglast
    have hchain2 : List.Chain (fun w1 w2 => w2.head? = w1.getLast?) (seq ++ t) ws := by
      cases ws with
      | nil => exact List.Chain.nil
      | cons w2 ws2 =>
        obtain ⟨hlink2, hchain3⟩ := List.chain_cons.1 hchain'
        refine List.chain_cons.2 ⟨?_, hchain3⟩
        rw [hlink2, ← hlast']
        rfl
    have := ih (seq ++ t) hseq' (fun x hx => hrest x (List.mem_cons_of_mem _ hx)) hchain2
    simpa [List.append_assoc] using this

theorem concatDrop_chain {p : LBPuzzle} {ws : List Word}
    (hprops : ∀ w ∈ ws, wordChainOk p w ∧ 2 ≤ w.length)
    (hchain : List.Chain' (fun w1 w2 => w2.head? = w1.getLast?) ws) :
    List.Chain' (chainStepOk p) (concatDrop ws) := by
  cases ws with
  | nil => exact List.chain'_nil
  | cons first rest =>
    show List.Chain' (chainStepOk p) (first ++ (rest.map (fun w => w.drop 1)).flatten)
    exact concatDrop_chain_go rest first (hprops first (List.mem_cons_self _ _)).1
      (fun w hw => hprops w (List.mem_cons_of_mem _ hw)) hchain

theorem concatDrop_mem_go :
    ∀ (rest : List Word) (seq : Word) (c : Char),
      (∀ w ∈ rest, 2 ≤ w.length) →
      List.Chain (fun w1 w2 => w2.head? = w1.getLast?) seq rest →
      (c ∈ seq ∨ c ∈ rest.flatten) →
      c ∈ seq ++ (rest.map (fun w => w.drop 1)).flatten := by
  intro rest
  induction rest with
  | nil =>
    intro seq c _ _ hc
    rcases hc with hc | hc
    · simpa using hc
    · exact absurd hc (by simp)
  | cons w ws ih =>
    intro seq c hlen hchain hc
    obtain ⟨hlink, hchain'⟩ := List.chain_cons.1 hchain
    have hw2 : 2 ≤ w.length := hlen w (List.mem_cons_self _ _)
    obtain ⟨hglast, hdne⟩ := drop_one_getLast? hw2
    have hlast' : (seq ++ w.drop 1).getLast? = w.getLast? := by
      rw [List.getLast?_append]
      cases hdl : (w.drop 1).getLast? with
      | none =>
        have := List.getLast?_eq_getLast _ hdne
        rw [this] at hdl
        exact absurd hdl (by simp)
      | some y =>
        rw [hdl] at hglast
        rw [show (some y).or seq.getLast? = some y from rfl]
        exact hglast
    have hchain2 : List.Chain (fun w1 w2 => w2.head? = w1.getLast?) (seq ++ w.drop 1) ws := by
      cases ws with
      | nil => exact List.Chain.nil
      | cons w2 ws2 =>
        obtain ⟨hlink2, hchain3⟩ := List.chain_cons.1 hchain'
        exact List.chain_cons.2 ⟨by rw [hlink2, ← hlast'], hchain3⟩
    have hnext : c ∈ seq ++ w.drop 1 ∨ c ∈ ws.flatten := by
      rcases hc with hc | hc
      · exact Or.inl (List.mem_append.2 (Or.inl hc))
      · rw [List.flatten_cons] at hc
        rcases List.mem_append.1 hc with hc' | hc'
        · obtain ⟨h0, t0, rfl⟩ : ∃ h0 t0, w = h0 :: t0 := by
            cases w with
            | nil => exact absurd hw2 (by simp)
            | cons h0 t0 => exact ⟨h0, t0, rfl⟩
          rcases List.mem_cons.1 hc' with rfl | hc''
          · have hcseq : c ∈ seq := by
              apply List.mem_of_getLast?_eq_some (a := c)
              rw [← hlink]
              rfl
            exact Or.inl (List.mem_append.2 (Or.inl hcseq))
          · exact Or.inl (List.mem_append.2 (Or.inr hc''))
        · exact Or.inr hc'
    have := ih (seq ++ w.drop 1) c (fun x hx => hlen x (List.mem_cons_of_mem _ hx))
      hchain2 hnext
    simpa [List.append_assoc] using this

theorem concatDrop_mem {ws : List Word} (hlen : ∀ w ∈ ws, 2 ≤ w.length)
    (hchain : List.Chain' (fun w1 w2 => w2.head? = w1.getLast?) ws) :
    ∀ c ∈ ws.flatten, c ∈ concatDrop ws := by
  cases ws with
  | nil => simp
  | cons first rest =>
    intro c hc
    rw [List.flatten_cons] at hc
    show c ∈ first ++ (rest.map (fun w => w.drop 1)).flatten
    exact concatDrop_mem_go rest first c
      (fun w hw => hlen w (List.mem_cons_of_mem _ hw)) hchain
      ((List.mem_append.1 hc).imp id id)

theorem mem_concatDrop_sub :
    ∀ (ws : List Word) (c : Char), c ∈ concatDrop ws → ∃ w ∈ ws, c ∈ w := by
  intro ws c hc
  cases ws with
  | nil => exact absurd hc (by simp [concatDrop])
  | cons w rest =>
    rw [show concatDrop (w :: rest) = w ++ (rest.map (fun x => x.drop 1)).flatten
      from rfl] at hc
    rcases List.mem_append.1 hc with hc' | hc'
    · exact ⟨w, List.mem_cons_self _ _, hc'⟩
    · obtain ⟨v, hv, hcv⟩ := List.mem_flatten.1 hc'
      obtain ⟨u, hu, rfl⟩ := List.mem_map.1 hv
      exact ⟨u, List.mem_cons_of_mem _ hu, List.mem_of_mem_drop hcv⟩

/-! ### A covering chained run makes the walk succeed with a full grid -/

theorem walk_covers {p : LBPuzzle} (hWf : p.Wf) (hnd : (all_letters p).Nodup)
    {seq : Word}
    (hmem : ∀ c ∈ seq, c ∈ all_letters p)
    (hchain : List.Chain' (chainStepOk p) seq)
    (hcover : ∀ c ∈ all_letters p, c ∈ seq) :
    ∃ v', walkSeq p seq = .ok v' ∧ v'.all (fun side => side.all id) = true := by
  have hvlen : (p.sides.map (fun side => side.map (fun _ => false))).length =
      p.sides.length := List.length_map _ _
  have hvrow : ∀ k, (((p.sides.map (fun side => side.map (fun _ => false))).get? k).getD
      []).length = ((p.sides.get? k).getD []).length := by
    intro k
    rw [List.get?_map]
    cases hk : p.sides.get? k with
    | none => rfl
    | some row => simp
  obtain ⟨v', hwalk, hlen', hrow', -, hmarks⟩ :=
    walkGo_sound hWf hnd seq (-1) (p.sides.map (fun side => side.map (fun _ => false)))
      hmem hchain (fun c0 _ s row _ _ => by intro hcontra; omega) hvlen hvrow
  refine ⟨v', hwalk, ?_⟩
  rw [List.all_eq_true]
  intro side hside
  obtain ⟨s, hs⟩ := List.mem_iff_get?.1 hside
  have hslt : s < p.sides.length := by
    have := (List.get?_eq_some.1 hs).1
    rwa [hlen', hvlen] at this
  obtain ⟨row, hrow⟩ : ∃ row, p.sides.get? s = some row := by
    cases hr : p.sides.get? s with
    | none => exact absurd (List.get?_eq_none.1 hr) (by omega)
    | some row => exact ⟨row, rfl⟩
  have hsidelen : side.length = row.length := by
    have h1 := hrow' s
    rw [hs, hvrow s, hrow] at h1
    simpa using h1
  have hrownd : row.Nodup :=
    (List.nodup_flatten.1 hnd).1 row (List.get?_mem hrow)
  rw [List.all_eq_true]
  intro b hb
  obtain ⟨k, hk⟩ := List.mem_iff_get?.1 hb
  have hklt : k < row.length := by
    have := (List.get?_eq_some.1 hk).1
    omega
  obtain ⟨x, hx⟩ : ∃ x, row.get? k = some x := by
    cases hr : row.get? k with
    | none => exact absurd (List.get?_eq_none.1 hr) (by omega)
    | some x => exact ⟨x, rfl⟩
  have hxall : x ∈ all_letters p :=
    List.mem_flatten.2 ⟨row, List.get?_mem hrow, List.get?_mem hx⟩
  have hfind : row.findIdx? (fun l => x == l) = some k := nodup_findIdx? hrownd hx
  have hmark := hmarks x (hcover x hxall) s row k hrow hfind
  unfold vget at hmark
  rw [hs] at hmark
  simp only [Option.getD_some] at hmark
  rw [hk] at hmark
  simp only [Option.getD_some] at hmark
  show id b = true
  rw [hmark]
  rfl

theorem coverage_of_cover {p : LBPuzzle} (hWf : p.Wf) (hnd : (all_letters p).Nodup)
    {ws : List Word} (hacc : ∀ w ∈ ws, wordAccepted p w = true)
    (hchain : List.Chain' (fun w1 w2 => w2.head? = w1.getLast?) ws)
    (hcov : ∀ c ∈ all_letters p, c ∈ ws.flatten) :
    validate_coverage p ws = true := by
  have hprops : ∀ w ∈ ws, wordChainOk p w ∧ 2 ≤ w.length := fun w hw =>
    ⟨(accepted_facts hWf (hacc w hw)).2.2,
     le_trans (by omega) (accepted_facts hWf (hacc w hw)).1⟩
  have hm : ∀ c ∈ concatDrop ws, c ∈ all_letters p := by
    intro c hc
    obtain ⟨w, hw, hcw⟩ := mem_concatDrop_sub ws c hc
    exact (accepted_facts hWf (hacc w hw)).2.1 c hcw
  have hch : List.Chain' (chainStepOk p) (concatDrop ws) :=
    concatDrop_chain hprops hchain
  have hcv : ∀ c ∈ all_letters p, c ∈ concatDrop ws := fun c hc =>
    concatDrop_mem (fun w hw => (hprops w hw).2) hchain c (hcov c hc)
  obtain ⟨v', hwalk, hall⟩ := walk_covers hWf hnd hm hch hcv
  unfold validate_coverage
  simp only [hwalk]
  exact hall

/-! ### The A* helper only returns validated solutions -/

theorem astar_returns_valid {p : LBPuzzle} (hWf : p.Wf) {raw : List Word}
    {d : SmartDictionary} (hInv : DictInv p raw d) {ew : Nat}
    {path : List Vertex} {cost : Nat} {sol : List Word}
    (hres : IsAstarResult p d ew path cost)
    (hpost : helper_postprocess p d (some (path, cost)) = some (some sol)) :
    validate_solution p sol = some (.ok ()) := by
  rw [show helper_postprocess p d (some (path, cost)) =
      (if n_letters p = 0 then none
       else if path.length - 1 ≠ cost / n_letters p then none
       else
         match path.getLast? with
         | none => some none
         | some v =>
           match vertex_solution d v with
           | none => none
           | some ws => some (some ws)) from rfl] at hpost
  by_cases hn0 : n_letters p = 0
  · rw [if_pos hn0] at hpost
    exact absurd hpost (by simp)
  rw [if_neg hn0] at hpost
  by_cases hcost : path.length - 1 ≠ cost / n_letters p
  · rw [if_pos hcost] at hpost
    exact absurd hpost (by simp)
  rw [if_neg hcost] at hpost
  cases hlast : path.getLast? with
  | none =>
    simp only [hlast] at hpost
    exact absurd (Option.some.inj hpost) (by simp)
  | some v =>
    simp only [hlast] at hpost
    cases hvs : vertex_solution d v with
    | none =>
      simp only [hvs] at hpost
      exact absurd hpost (by simp)
    | some ws0 =>
      simp only [hvs] at hpost
      have hws0 : ws0 = sol := Option.some.inj (Option.some.inj hpost)
      obtain ⟨hhead, hchain, ⟨vg, hvg, hheur⟩, -⟩ := hres
      have hvvg : vg = v := Option.some.inj ((hvg.symm).trans hlast)
      rw [hvvg] at hheur
      have hreach : Reach p d ew v := chain_reach hhead hchain hlast
      obtain ⟨ws, hmapM, hacc, hchain2, hletter, hcov⟩ := reach_vertexOk hInv hreach
      have hwssol : ws = sol := by
        unfold vertex_solution at hvs
        cases hwp : v.words_path with
        | none =>
          simp only [hwp] at hvs
          exact absurd hvs (by simp)
        | some idxs =>
          simp only [hwp] at hvs
          rw [hwp] at hmapM
          simp only [Option.getD_some] at hmapM
          rw [hmapM] at hvs
          rw [← hws0, ← Option.some.inj hvs]
      have hle : n_letters p ≤ v.coverage.card := by
        unfold heuristic at hheur
        omega
      have hsub : v.coverage ⊆ (all_letters p).toFinset := by
        rw [hcov]
        intro x hx
        obtain ⟨w, hw, hxw⟩ := List.mem_flatten.1 (List.mem_toFinset.1 hx)
        exact List.mem_toFinset.2 ((accepted_facts hWf (hacc w hw)).2.1 x hxw)
      obtain ⟨hnd, hceq⟩ := goal_cover hWf hsub hle
      have hcovall : ∀ c ∈ all_letters p, c ∈ ws.flatten := by
        intro c hc
        have h1 : c ∈ v.coverage := by
          rw [hceq]
          exact List.mem_toFinset.2 hc
        rw [hcov] at h1
        exact List.mem_toFinset.1 h1
      have hvc := coverage_of_cover hWf hnd hacc hchain2 hcovall
      rw [← hwssol]
      exact seqOk_validate hWf (by omega) ⟨hacc, hchain2⟩ hvc

/-! ### The brute-force queue invariant -/

theorem valid_letters_one {p : LBPuzzle} (hWf : p.Wf) (hn : n_letters p = 1)
    {i : Nat} (hi : i < 1) : valid_letters p (i : Int) = [] := by
  have hi0 : i = 0 := by omega
  subst hi0
  rw [List.eq_nil_iff_forall_not_mem]
  intro c hc
  unfold valid_letters at hc
  obtain ⟨sz, hsz, hcsz⟩ := List.mem_flatMap.1 hc
  rcases sz with ⟨i1, side1⟩
  have hszf := List.mem_filter.1 hsz
  have hbound : i1 < p.sides.length := (List.get?_eq_some.1 (mem_enum_get? hszf.1)).1
  have hS : p.S = 1 := by
    have := hn
    unfold n_letters at this
    rcases Nat.eq_zero_or_pos p.S with h0 | h1
    · rw [h0, Nat.zero_mul] at this; omega
    · rcases Nat.eq_zero_or_pos p.L with hL0 | hL1
      · rw [hL0, Nat.mul_zero] at this; omega
      · nlinarith
  have hsz0 : i1 = 0 := by
    rw [hWf.1, hS] at hbound
    omega
  have hside : is_idx_on_side p ((0 : Nat) : Int) ((i1 : Nat) : Int) = true := by
    rw [hsz0]
    unfold is_idx_on_side idx_to_side
    rw [if_pos ⟨by simp, by rw [hn]; simp⟩]
    simp [Int.zero_div]
  have := hszf.2
  simp only [hside] at this
  simp at this

theorem bf_add_valid_one {p : LBPuzzle} (hWf : p.Wf) (hn : n_letters p = 1)
    (dict : List Word) {stub : BFSolution} (hidx : stub.last_idx < n_letters p) :
    bf_add_valid p dict stub = [] := by
  unfold bf_add_valid
  cases hlast : stub.words.getLast? with
  | none => rfl
  | some curr =>
    rw [valid_letters_one hWf hn (by omega)]
    rfl

theorem bf_add_valid_inv {p : LBPuzzle} (dict : List Word) {stub : BFSolution}
    (hWf : p.Wf) (hinv : BFInv p stub) :
    ∀ q ∈ bf_add_valid p dict stub, BFInv p q := by
  intro q hq
  unfold bf_add_valid at hq
  cases hlast : stub.words.getLast? with
  | none =>
    rw [hlast] at hq
    exact absurd hq (by simp)
  | some curr =>
    rw [hlast] at hq
    obtain ⟨letter, hletter, hsome⟩ := List.mem_filterMap.1 hq
    by_cases hd : dict.contains (curr ++ [letter]) = true
    · rw [if_pos hd] at hsome
      have hqeq : q = ⟨stub.words.dropLast ++ [curr ++ [letter]], stub.last_idx,
          stub.visited⟩ := (Option.some.inj hsome).symm
      subst hqeq
      refine ⟨hinv.1, hinv.2.1, hinv.2.2.1, ?_⟩
      intro hn1 w hw
      have hlt := hinv.2.1
      rw [valid_letters_one hWf (by omega) (by omega)] at hletter
      exact absurd hletter (by simp)
    · rw [if_neg hd] at hsome
      exact absurd hsome (by simp)

theorem bf_init_inv {p : LBPuzzle} (hWf : p.Wf) :
    ∀ q ∈ bf_init p, BFInv p q := by
  intro q hq
  unfold bf_init at hq
  obtain ⟨ic, hic, hqeq⟩ := List.mem_map.1 hq
  rcases ic with ⟨i1, c1⟩
  subst hqeq
  refine ⟨List.length_replicate _ _, ?_, ?_, ?_⟩
  · have hlt : i1 < (all_letters p).length := (List.get?_eq_some.1 (mem_enum_get? hic)).1
    show i1 < n_letters p
    rwa [all_letters_length hWf] at hlt
  · intro j hj hcontra
    have hcontra' : (List.replicate (n_letters p) false).get? j = some true := hcontra
    have := List.eq_of_mem_replicate (List.get?_mem hcontra')
    simp at this
  · intro _ w hw
    rw [List.mem_singleton.1 hw]
    simp

theorem bf_run_no_success {p : LBPuzzle} (hWf : p.Wf) (dict : List Word) :
    ∀ (fuel : Nat) (queue : List BFSolution),
      (∀ q ∈ queue, BFInv p q) →
      ∀ sol, bf_run p dict fuel queue ≠ some (some sol) := by
  intro fuel
  induction fuel with
  | zero =>
    intro queue _ sol h
    exact absurd h (by simp [bf_run])
  | succ f ih =>
    intro queue hq sol
    cases queue with
    | nil =>
      intro h
      simp [bf_run] at h
    | cons s0 rest =>
      obtain ⟨hv1, hv2, hv3, hv4⟩ := hq s0 (List.mem_cons_self _ _)
      have hrest : ∀ q ∈ rest, BFInv p q := fun q hqr => hq q (List.mem_cons_of_mem _ hqr)
      have hsinv : BFInv p ⟨s0.words, s0.last_idx, s0.visited.set s0.last_idx true⟩ := by
        refine ⟨by rw [List.length_set]; exact hv1, hv2, ?_, hv4⟩
        intro j hj
        show (s0.visited.set s0.last_idx true).get? j ≠ some true
        rw [List.get?_set_ne _ _ (fun h => hj h.symm)]
        exact hv3 j hj
      have hendinv : BFInv p (bf_end_word ⟨s0.words, s0.last_idx,
          s0.visited.set s0.last_idx true⟩) := by
        obtain ⟨h1, h2, h3, h4⟩ := hsinv
        refine ⟨h1, h2, h3, ?_⟩
        intro hn1 w hw
        rcases List.mem_append.1 hw with hw' | hw'
        · exact h4 hn1 w hw'
        · rw [List.mem_singleton.1 hw']
          cases s0.words.getLast? with
          | none => simp
          | some lw =>
            cases hl : lw.getLast? with
            | none => simp [hl]
            | some c => simp [hl]
      have hunf : bf_run p dict (f + 1) (s0 :: rest) =
          (match s0.words.getLast? with
          | none => none
          | some curr =>
            if 3 ≤ curr.length ∧ dict.contains curr then
              if (s0.visited.set s0.last_idx true).all id then
                some (some s0.words)
              else
                bf_run p dict f
                  ((rest ++ bf_add_valid p dict (bf_end_word
                    ⟨s0.words, s0.last_idx, s0.visited.set s0.last_idx true⟩)) ++
                   bf_add_valid p dict ⟨s0.words, s0.last_idx, s0.visited.set s0.last_idx true⟩)
            else bf_run p dict f
              (rest ++ bf_add_valid p dict ⟨s0.words, s0.last_idx, s0.visited.set s0.last_idx true⟩)) := rfl
      cases hcur : s0.words.getLast? with
      | none =>
        have hnone : bf_run p dict (f + 1) (s0 :: rest) = none := by
          rw [hunf, hcur]
        rw [hnone]
        simp
      | some curr =>
        have hstep : bf_run p dict (f + 1) (s0 :: rest) =
            (if 3 ≤ curr.length ∧ dict.contains curr = true then
              if (s0.visited.set s0.last_idx true).all id then
                some (some s0.words)
              else
                bf_run p dict f
                  ((rest ++ bf_add_valid p dict (bf_end_word
                    ⟨s0.words, s0.last_idx, s0.visited.set s0.last_idx true⟩)) ++
                   bf_add_valid p dict ⟨s0.words, s0.last_idx, s0.visited.set s0.last_idx true⟩)
            else bf_run p dict f
              (rest ++ bf_add_valid p dict
                ⟨s0.words, s0.last_idx, s0.visited.set s0.last_idx true⟩)) := by
          rw [hunf, hcur]
        rw [hstep]
        by_cases hdict : 3 ≤ curr.length ∧ dict.contains curr = true
        · rw [if_pos hdict]
          have hall : (s0.visited.set s0.last_idx true).all id ≠ true := by
            intro hall
            by_cases hn1 : n_letters p ≤ 1
            · have hcmem : curr ∈ s0.words := List.mem_of_getLast?_eq_some hcur
              have := hv4 hn1 curr hcmem
              omega
            · push_neg at hn1
              set j : Nat := if s0.last_idx = 0 then 1 else 0 with hj
              have hjne : j ≠ s0.last_idx := by
                rw [hj]
                split_ifs with h0
                · omega
                · omega
              have hjlt : j < (s0.visited.set s0.last_idx true).length := by
                rw [List.length_set, hv1, hj]
                split_ifs <;> omega
              obtain ⟨b, hb⟩ : ∃ b, (s0.visited.set s0.last_idx true).get? j = some b := by
                cases hg : (s0.visited.set s0.last_idx true).get? j with
                | none => exact absurd (List.get?_eq_none.1 hg) (by omega)
                | some b => exact ⟨b, rfl⟩
              have hbtrue : b = true := by
                have := List.all_eq_true.1 hall b (List.get?_mem hb)
                simpa using this
              rw [List.get?_set_ne _ _ (fun h => hjne h.symm)] at hb
              rw [hbtrue] at hb
              exact hv3 j hjne hb
          rw [if_neg hall]
          apply ih
          intro q hq'
          rcases List.mem_append.1 hq' with hq'' | hq''
          · rcases List.mem_append.1 hq'' with h3 | h3
            · exact hrest q h3
            · exact bf_add_valid_inv dict hWf hendinv q h3
          · exact bf_add_valid_inv dict hWf hsinv q hq''
        · rw [if_neg hdict]
          apply ih
          intro q hq'
          rcases List.mem_append.1 hq' with hq'' | hq''
          · exact hrest q hq''
          · exact bf_add_valid_inv dict hWf hsinv q hq''

/-! ### C1: the solver correctness contract -/

/-- C1 (amended): each solver strategy only ever returns solutions that
pass `validate_solution`.  A*: any solution the helper extracts from an
`astar` search result over a dictionary built for the puzzle validates.
Pre-Dictionary greedy DFS: on a board with at least one letter position,
any returned solution validates.  Brute force: the solver never returns
a solution at all (its work loop never updates `last_idx`, so the
visited bitmap can never become all-true on a multi-letter board, and on
a one-letter board no word can grow to the required three letters).  The
restriction `1 ≤ n_letters` in the Pre-Dictionary part amends the
original claim: on a zero-letter board that solver returns the empty
sequence, on which `validate_solution` panics instead of succeeding. -/
theorem solver_solutions_validate (p : LBPuzzle) (hWf : p.Wf) :
    (∀ (raw : List Word) (d : SmartDictionary) (ew : Nat) (path : List Vertex)
       (cost : Nat) (sol : List Word),
       IsBuild p raw d → IsAstarResult p d ew path cost →
       helper_postprocess p d (some (path, cost)) = some (some sol) →
       validate_solution p sol = some (.ok ())) ∧
    (∀ (raw : List Word) (σ : List Char) (fuel : Nat) (sol : List Word),
       1 ≤ n_letters p →
       solve_pre_dict p raw σ fuel = some (some sol) →
       validate_solution p sol = some (.ok ())) ∧
    (∀ (dict : List Word) (fuel : Nat) (sol : List Word),
       bf_run p dict fuel (bf_init p) ≠ some (some sol)) := by
  refine ⟨?_, ?_, ?_⟩
  · intro raw d ew path cost sol hBuild hres hpost
    exact astar_returns_valid hWf (isBuild_dictInv hBuild) hres hpost
  · intro raw σ fuel sol hn hrun
    unfold solve_pre_dict at hrun
    exact solve_step_sound hWf hn (dictNew_dictInv p raw σ) fuel [] none sol
      (show SeqOk p [] from ⟨fun w hw => absurd hw (by simp), List.chain'_nil⟩)
      (fun cands hc => absurd hc (by simp)) hrun
  · intro dict fuel sol
    exact bf_run_no_success hWf dict fuel (bf_init p) (bf_init_inv hWf) sol

/-- C1 counterexample to the unamended claim: on the zero-letter board
the Pre-Dictionary greedy DFS returns the empty word sequence (its
coverage base case accepts immediately), but `validate_solution` on the
empty sequence panics (`solution.get(0).unwrap()`, modelled as `none`)
instead of returning success. -/
theorem pre_dict_empty_board_counterexample :
    emptyPuzzle.Wf ∧
    solve_pre_dict emptyPuzzle [] [] 1 = some (some []) ∧
    validate_solution emptyPuzzle [] = none :=
  ⟨by decide, by decide, by decide⟩

/-- C1 witness: the amended theorem at the concrete two-letter board,
whose Pre-Dictionary solve returns `["aca"]`, which validates. -/
theorem solver_solutions_validate_witness :
    tinyPuzzle.Wf ∧ 1 ≤ n_letters tinyPuzzle ∧
    solve_pre_dict tinyPuzzle tinyRaw ['a'] 5 = some (some [['a', 'c', 'a']]) ∧
    validate_solution tinyPuzzle [['a', 'c', 'a']] = some (.ok ()) :=
  ⟨by decide, by decide, by decide,
    (solver_solutions_validate tinyPuzzle (by decide)).2.1 tinyRaw ['a'] 5
      [['a', 'c', 'a']] (by decide) (by decide)⟩

end LB
